import Mathlib

/-!
Verification of the fast-reroute controller
(`07-Fast-Reroute/solution/controller.py`).

The controller computes, per switch, primary next hops toward every host
(all-pairs Dijkstra over the topology with failed links excluded),
loop-free-alternate (LFA) backup next hops, and reacts to link-failure
notifications with a delayed recomputation.

Shallow embedding conventions:
* node names are strings;
* the weighted undirected topology is an explicit edge list
  (networkx `Graph` semantics: simple graph, `remove_edge` raises
  `NetworkXError` when the edge is absent);
* Python code that can raise (`KeyError`, `IndexError`, `NetworkXError`)
  is embedded in `Except String`;
* Python `dict`s are association lists, Python `set` iteration is a list
  in one fixed (arbitrary) order, matching the "deterministic but
  unspecified" iteration the design allows.
-/

namespace Reroute

abbrev Node := String

/-- A weighted undirected graph: the topology loaded from `topology.json`
(node names plus weighted links).  Models the networkx graph held in
`self.topo`. -/
structure Graph where
  nodes : List Node
  edges : List (Node × Node × Nat)
deriving Repr, DecidableEq

/-- Does an edge record `e` connect `u` and `v` (in either direction)?
Edge identity is an unordered pair, as in networkx. -/
def edgeConnects (u v : Node) (e : Node × Node × Nat) : Bool :=
  (e.1 = u && e.2.1 = v) || (e.1 = v && e.2.1 = u)

/-- `hasEdge g u v`: the graph has a link between `u` and `v`. -/
def Graph.hasEdge (g : Graph) (u v : Node) : Bool :=
  g.edges.any (edgeConnects u v)

/-- Weighted adjacency of `u`: the neighbors of `u` with link weights
(the `weight` attribute used by `all_pairs_dijkstra`). -/
def Graph.neighbors (g : Graph) (u : Node) : List (Node × Nat) :=
  g.edges.filterMap fun e =>
    if e.1 = u then some (e.2.1, e.2.2)
    else if e.2.1 = u then some (e.1, e.2.2)
    else none

/-- `graph.remove_edge(*failure)` (networkx `Graph.remove_edge`): deletes
the link between the two endpoints, raising `NetworkXError` when there is
no such link. -/
def removeEdge (g : Graph) (uv : Node × Node) : Except String Graph :=
  if g.hasEdge uv.1 uv.2 then
    .ok ⟨g.nodes, g.edges.filter fun e => !(edgeConnects uv.1 uv.2 e)⟩
  else
    .error "NetworkXError: the edge is not in the graph"

/-- The `for failure in failures: graph.remove_edge(*failure)` loop of
`RerouteController.dijkstra`, applied to a copy of the topology. -/
def removeEdges (g : Graph) : List (Node × Node) → Except String Graph
  | [] => .ok g
  | uv :: rest => do
    let g' ← removeEdge g uv
    removeEdges g' rest

/-! ### Dijkstra (networkx `all_pairs_dijkstra`)

`all_pairs_dijkstra(graph, weight='weight')` runs single-source Dijkstra
from every node, yielding for each source a distance dict and a path dict
(paths as node sequences starting at the source).  We embed the standard
lazy-deletion heap Dijkstra: a pool of tentative entries, repeatedly
extracting a minimum-distance entry and settling it (skipping nodes
already settled), with enough fuel to exhaust the pool. -/

/-- One tentative / settled Dijkstra record: a node, its distance from
the source, and one shortest path from the source to it. -/
structure Entry where
  node : Node
  dist : Nat
  path : List Node
deriving Repr, DecidableEq

/-- Extract an entry of minimal distance from the pool (the heap pop;
first minimum on ties). -/
def extractMin : List Entry → Option (Entry × List Entry)
  | [] => none
  | e :: es =>
    match extractMin es with
    | none => some (e, [])
    | some (m, rest) =>
      if e.dist ≤ m.dist then some (e, es) else some (m, e :: rest)

/-- The Dijkstra main loop: settle a minimum-distance entry, push its
neighbors extended by one edge, skip entries whose node was already
settled.  `fuel` bounds the number of iterations; `dijkstraFuel` below
always suffices to drain the pool. -/
def dijkstraLoop (g : Graph) : Nat → List Entry → List Entry → List Entry
  | 0, settled, _ => settled
  | fuel + 1, settled, pool =>
    match extractMin pool with
    | none => settled
    | some (e, rest) =>
      if settled.any (fun s => s.node = e.node) then
        dijkstraLoop g fuel settled rest
      else
        dijkstraLoop g fuel (settled ++ [e])
          (rest ++ (g.neighbors e.node).map fun vw =>
            { node := vw.1, dist := e.dist + vw.2, path := e.path ++ [vw.1] })

/-- Fuel that always drains the pool: each settling adds at most
`2·|edges|` entries and there are at most `|nodes|` settlings, so the
pool never holds more than `1 + |nodes|·2·|edges|` entries in total. -/
def dijkstraFuel (g : Graph) : Nat :=
  (g.nodes.length + 1) * (2 * g.edges.length + 2) + 1

/-- Single-source Dijkstra from `src`: settled entries (node, distance,
path), the path starting at `src`. -/
def singleSource (g : Graph) (src : Node) : List Entry :=
  dijkstraLoop g (dijkstraFuel g) [] [{ node := src, dist := 0, path := [src] }]

/-- `dict(all_pairs_dijkstra(graph, weight='weight'))`: one row per node. -/
def allPairsDijkstra (g : Graph) : List (Node × List Entry) :=
  g.nodes.map fun src => (src, singleSource g src)

/-- Distance table: `{node: data[0] for node, data in dijkstra.items()}`. -/
abbrev DistTable := List (Node × List (Node × Nat))

/-- Path table: `{node: data[1] for node, data in dijkstra.items()}`. -/
abbrev PathTable := List (Node × List (Node × List Node))

/-- Association-list lookup (Python dict subscript, `none` = `KeyError`). -/
def tlook {α : Type} (t : List (Node × α)) (k : Node) : Option α :=
  (t.find? fun p => p.1 = k).map fun p => p.2

/-- Nested distance lookup `d[a][b]`. -/
def dlook (d : DistTable) (a b : Node) : Option Nat :=
  (tlook d a).bind fun row => tlook row b

/-- Nested path lookup `paths[a][b]`. -/
def plook (p : PathTable) (a b : Node) : Option (List Node) :=
  (tlook p a).bind fun row => tlook row b

/-- The graph `dijkstra` actually computes on: the topology itself when
`failures is None`, otherwise a fresh copy with every failed link
removed (`graph = graph.copy(); graph.remove_edge(*failure)`). -/
def effectiveGraph (topo : Graph) :
    Option (List (Node × Node)) → Except String Graph
  | none => .ok topo
  | some fs => removeEdges topo fs

/-- `{node: data[0] for node, data in dijkstra.items()}`. -/
def distTableOf (g : Graph) : DistTable :=
  (allPairsDijkstra g).map fun row =>
    (row.1, row.2.map fun e => (e.node, e.dist))

/-- `{node: data[1] for node, data in dijkstra.items()}`. -/
def pathTableOf (g : Graph) : PathTable :=
  (allPairsDijkstra g).map fun row =>
    (row.1, row.2.map fun e => (e.node, e.path))

/-- `RerouteController.dijkstra(failures)`: excludes the failed links
from a copy of the topology (raising if a listed link is absent, per
networkx), then computes all-pairs shortest distances and paths. -/
def dijkstra (topo : Graph) (failures : Option (List (Node × Node))) :
    Except String (DistTable × PathTable) := do
  let graph ← effectiveGraph topo failures
  .ok (distTableOf graph, pathTableOf graph)

/-! ### compute_nexthops -/

/-- The inner `for host in hosts` loop of
`RerouteController.compute_nexthops`: look up
`all_shortest_paths[switch][host]`; on `KeyError` warn and `continue`;
otherwise take `path[1]` (an uncaught `IndexError` if the path has fewer
than two nodes) and record `(host, nexthop)`. -/
def nexthopEntries (paths : PathTable) (sw : Node) :
    List Node → Except String (List (Node × Node))
  | [] => .ok []
  | host :: rest =>
    match plook paths sw host with
    | none => nexthopEntries paths sw rest
    | some path =>
      match path.get? 1 with
      | none => .error "IndexError: list index out of range"
      | some nexthop => do
        let tail ← nexthopEntries paths sw rest
        .ok ((host, nexthop) :: tail)

/-- The outer `for switch in self.controllers` loop of
`compute_nexthops`: one row of `(host, nexthop)` entries per switch. -/
def nexthopRows (paths : PathTable) (hosts : List Node) :
    List Node → Except String (List (Node × List (Node × Node)))
  | [] => .ok []
  | sw :: rest => do
    let entries ← nexthopEntries paths sw hosts
    let tail ← nexthopRows paths hosts rest
    .ok ((sw, entries) :: tail)

/-- `RerouteController.compute_nexthops(failures)`: one row per switch
(the keys of `self.controllers`), mapping each reachable host to the
first hop of the shortest path toward it.  `switches` are the p4
switches, `hosts` the keys of `topo.get_hosts()` (both provided by the
external topology object). -/
def computeNexthops (topo : Graph) (switches hosts : List Node)
    (failures : Option (List (Node × Node))) :
    Except String (List (Node × List (Node × Node))) := do
  let paths := (← dijkstra topo failures).2
  nexthopRows paths hosts switches

/-! ### compute_lfas -/

/-- `self.topo.get_p4switches_connected_to(switch)` wrapped in `set(...)`:
the p4-switch neighbors of `switch` in the (full, pre-failure) topology,
deduplicated.  List order stands in for the Python set's fixed but
arbitrary iteration order. -/
def p4switchesConnectedTo (topo : Graph) (switches : List Node) (sw : Node) :
    List Node :=
  (((topo.neighbors sw).map fun p => p.1).filter fun n => switches.contains n).dedup

/-- Python's `min(noloop, key=lambda x: x[1])` on a nonempty list: the
first element of minimal second component. -/
def minBySnd : List (Node × Nat) → Option (Node × Nat)
  | [] => none
  | x :: xs => some (xs.foldl (fun best y => if y.2 < best.2 then y else best) x)

/-- Distance lookup `_d[a][b]` as the Python subscript: `KeyError` when
absent. -/
def dRequire (d : DistTable) (a b : Node) : Except String Nat :=
  match dlook d a b with
  | some v => .ok v
  | none => .error "KeyError"

/-- The `for alternate in others` loop of `RerouteController.compute_lfas`,
with the source's exact (oddly indented) body: per candidate, test the
loop-free condition `_d[alt][host] < _d[alt][switch] + _d[switch][host]`
and append `(alt, _d[switch][alt] + _d[alt][host])` to `noloop` on
success; then, still inside the loop, `continue` when `noloop` is empty,
else overwrite `switch_lfas[host]` with the minimum of `noloop` so far.
State: accumulated `noloop` and the current `switch_lfas[host]`. -/
def lfaScan (d : DistTable) (sw host : Node) :
    List Node → List (Node × Nat) → Option Node →
    Except String (List (Node × Nat) × Option Node)
  | [], noloop, cur => .ok (noloop, cur)
  | alt :: rest, noloop, cur => do
    let dah ← dRequire d alt host
    let das ← dRequire d alt sw
    let dsh ← dRequire d sw host
    let noloop' ←
      if dah < das + dsh then do
        let dsa ← dRequire d sw alt
        pure (noloop ++ [(alt, dsa + dah)])
      else
        pure noloop
    if noloop'.isEmpty then
      lfaScan d sw host rest noloop' cur
    else
      lfaScan d sw host rest noloop' ((minBySnd noloop').map fun p => p.1)

/-- `others = connected - {nexthop}`: the candidate alternates scanned
for one destination. -/
def lfaOthers (topo : Graph) (switches : List Node) (sw nexthop : Node) :
    List Node :=
  (p4switchesConnectedTo topo switches sw).filter fun n => n ≠ nexthop

/-- The `for host, nexthop in destinations` loop of `compute_lfas`:
skip hosts whose nexthop is the host itself, otherwise scan the
alternate candidates `connected - {nexthop}` and record the chosen LFA
(if any) under `host`. -/
def lfaHosts (d : DistTable) (topo : Graph) (switches : List Node) (sw : Node) :
    List (Node × Node) → Except String (List (Node × Node))
  | [] => .ok []
  | (host, nexthop) :: rest =>
    if nexthop = host then
      lfaHosts d topo switches sw rest
    else do
      let (_, cur) ← lfaScan d sw host (lfaOthers topo switches sw nexthop) [] none
      let tail ← lfaHosts d topo switches sw rest
      match cur with
      | none => .ok tail
      | some alt => .ok ((host, alt) :: tail)

/-- The outer `for switch, destinations in nexthops.items()` loop of
`compute_lfas`: one (possibly empty) LFA row per switch. -/
def lfaRows (d : DistTable) (topo : Graph) (switches : List Node) :
    List (Node × List (Node × Node)) →
    Except String (List (Node × List (Node × Node)))
  | [] => .ok []
  | (sw, destinations) :: rest => do
    let row ← lfaHosts d topo switches sw destinations
    let tail ← lfaRows d topo switches rest
    .ok ((sw, row) :: tail)

/-- `RerouteController.compute_lfas(nexthops, failures)`: distances under
the same failure set, then per switch and per destination the loop-free
alternate of minimal total distance, when one exists. -/
def computeLfas (topo : Graph) (switches : List Node)
    (failures : Option (List (Node × Node)))
    (nexthops : List (Node × List (Node × Node))) :
    Except String (List (Node × List (Node × Node))) := do
  let d := (← dijkstra topo failures).1
  lfaRows d topo switches nexthops

/-! ### nexthop indices and register writes -/

/-- Insert a node into a sorted list: keep skipping strictly smaller
heads (lexicographic code-point order, as Python compares strings). -/
def insertSorted (x : Node) : List Node → List Node
  | [] => [x]
  | y :: ys =>
    if y.data < x.data then y :: insertSorted x ys else x :: y :: ys

/-- `sorted(list(...))` on node names.  Node names are dictionary keys
(distinct), so every correct sort produces this same list. -/
def sortNodes : List Node → List Node
  | [] => []
  | x :: xs => insertSorted x (sortNodes xs)

/-- `RerouteController.get_nexthop_index(host)`: the host's position in
the sorted list of host names.  (Python `list.index` raises `ValueError`
for a missing element; every caller passes a host of the topology.) -/
def getNexthopIndex (hosts : List Node) (host : Node) : Nat :=
  (sortNodes hosts).indexOf host

/-- One `ipv4_lpm` table entry installed by
`RerouteController.install_nexthop_indices`: switch, host subnet, index.
`hostNet` models the external `get_host_net` helper. -/
def installNexthopIndices (switches hosts : List Node)
    (hostNet : Node → String) : List (Node × String × Nat) :=
  switches.flatMap fun sw =>
    hosts.map fun host => (sw, hostNet host, getNexthopIndex hosts host)

/-- One register write performed by `RerouteController.update_nexthops`:
`register_write('primaryNH', idx, port)` or
`register_write('alternativeNH', idx, port)` on a switch. -/
inductive RegWrite where
  | primary (sw : Node) (idx : Nat) (port : Nat)
  | alternative (sw : Node) (idx : Nat) (port : Nat)
deriving Repr, DecidableEq

/-- The second inner loop of `update_nexthops` (the LFA installation):
skip `host == nexthop` pairs; look up `lfas[switch][host]`, falling back
to the primary nexthop on `KeyError`; write the `alternativeNH` register
with that node's port.  `ports` models the external
`get_port`/`node_to_node_port_num` helper. -/
def altWrites (hosts : List Node) (ports : Node → Node → Nat)
    (lfas : List (Node × List (Node × Node))) (sw : Node) :
    List (Node × Node) → List RegWrite
  | [] => []
  | (host, nexthop) :: rest =>
    if host = nexthop then
      altWrites hosts ports lfas sw rest
    else
      let lfaNexthop :=
        match (tlook lfas sw).bind fun row => tlook row host with
        | some alt => alt
        | none => nexthop
      RegWrite.alternative sw (getNexthopIndex hosts host)
          (ports sw lfaNexthop) :: altWrites hosts ports lfas sw rest

/-- The body of `update_nexthops` for one switch: all `primaryNH` writes
(one per destination), then all `alternativeNH` writes. -/
def switchWrites (hosts : List Node) (ports : Node → Node → Nat)
    (lfas : List (Node × List (Node × Node))) (sw : Node)
    (destinations : List (Node × Node)) : List RegWrite :=
  (destinations.map fun hn =>
    RegWrite.primary sw (getNexthopIndex hosts hn.1) (ports sw hn.2))
  ++ altWrites hosts ports lfas sw destinations

/-- `RerouteController.update_nexthops(failures)`: compute nexthops and
LFAs, then emit the register writes performed on each switch. -/
def updateNexthops (topo : Graph) (switches hosts : List Node)
    (ports : Node → Node → Nat) (failures : Option (List (Node × Node))) :
    Except String (List RegWrite) := do
  let nexthops ← computeNexthops topo switches hosts failures
  let lfas ← computeLfas topo switches failures nexthops
  .ok (nexthops.flatMap fun row => switchWrites hosts ports lfas row.1 row.2)

/-! ### Failure notifications (process_packet) -/

/-- `tuple(sorted([switch_name, neighbor]))`: the normalized identity of
a link, an unordered endpoint pair in sorted order.  Python compares
strings lexicographically by code point, i.e. by the strict
lexicographic order on the character lists. -/
def sortPair (a b : Node) : Node × Node :=
  if b.data < a.data then (b, a) else (a, b)

/-- The controller's failure-notification state: `self.failed_links`
(a Python set of normalized pairs, modeled as a duplicate-free list). -/
structure DebounceState where
  failed_links : List (Node × Node)
deriving Repr, DecidableEq

/-- The failure branch of `RerouteController.process_packet`, given the
failed link's endpoints (`switch_name`, and the `neighbor` resolved from
the reported port by the external topology helper): normalize the link;
if it is already known do nothing at all; otherwise sleep for the
notification delay (blocking the sniff loop), add the link, and invoke
`failure_notification(list(self.failed_links))`, i.e. one recomputation
with the current failure set.  Returns the new state and the failure
list of the triggered recomputation, if any. -/
def processFailure (s : DebounceState) (link : Node × Node) :
    DebounceState × Option (List (Node × Node)) :=
  let failedLink := sortPair link.1 link.2
  if s.failed_links.contains failedLink then
    (s, none)
  else
    let s' : DebounceState := ⟨s.failed_links ++ [failedLink]⟩
    (s', some s'.failed_links)

/-- Serial processing of a burst of failure notifications.  Because
`process_packet` blocks in `time.sleep` inside the sniff callback, every
notification is handled to completion (including its recomputation)
before the next one is looked at; later arrivals merely queue.  Returns
the final state and the failure set of every recomputation performed. -/
def processBurst (s : DebounceState) :
    List (Node × Node) → DebounceState × List (List (Node × Node))
  | [] => (s, [])
  | e :: es =>
    let (s1, r) := processFailure s e
    let (s2, rs) := processBurst s1 es
    (s2, r.toList ++ rs)

/-! ### Concrete topologies (used to exercise the theorems) -/

/-- A ring topology: three switches in a triangle, one host each, all
weights 1 (the spec's ring scenario). -/
def ringTopo : Graph :=
  ⟨["s1", "s2", "s3", "h1", "h2", "h3"],
   [("s1", "s2", 1), ("s2", "s3", 1), ("s3", "s1", 1),
    ("h1", "s1", 1), ("h2", "s2", 1), ("h3", "s3", 1)]⟩

/-- A linear topology `h1 - s1 - s2 - h2` (the spec's no-alternate
scenario). -/
def lineTopo : Graph :=
  ⟨["s1", "s2", "h1", "h2"],
   [("h1", "s1", 1), ("s1", "s2", 1), ("s2", "h2", 1)]⟩

/-- A disconnected topology: two switch-host islands with no link
between them (`h1 - s1` and `s2 - h2`). -/
def splitTopo : Graph :=
  ⟨["s1", "s2", "h1", "h2"], [("h1", "s1", 1), ("s2", "h2", 1)]⟩

/-- `ringTopo` with the link `(s1, s2)` removed (the graph `dijkstra`
derives for the failure list `[(s1, s2)]`). -/
def ringTopoCut : Graph :=
  ⟨["s1", "s2", "s3", "h1", "h2", "h3"],
   [("s2", "s3", 1), ("s3", "s1", 1),
    ("h1", "s1", 1), ("h2", "s2", 1), ("h3", "s3", 1)]⟩

/-- A concrete port numbering used by the witnesses (stands in for the
external `node_to_node_port_num` helper). -/
def demoPorts (a b : Node) : Nat := a.length + 2 * b.length

/-- A concrete host-subnet map used by the witnesses (stands in for the
external `get_host_net` helper). -/
def demoNet (h : Node) : String := h ++ "/24"

/-! ### Specification predicates -/

/-- `isPath g p`: `p` is a nonempty node sequence whose consecutive
nodes are joined by links of `g`. -/
def isPath (g : Graph) : List Node → Bool
  | [] => false
  | [_] => true
  | a :: b :: rest => g.hasEdge a b && isPath g (b :: rest)

/-- A Dijkstra entry is valid for source `src`: its path is a path of
the graph from `src` to its node. -/
def validFrom (g : Graph) (src : Node) (e : Entry) : Prop :=
  isPath g e.path = true ∧ e.path.head? = some src
    ∧ e.path.getLast? = some e.node

/-- Does the failure list contain the (undirected) link `(a, b)`? -/
def inFailures (F : List (Node × Node)) (a b : Node) : Bool :=
  F.any fun uv => decide ((uv.1 = a ∧ uv.2 = b) ∨ (uv.1 = b ∧ uv.2 = a))

/-- The loop-free condition checked by `compute_lfas`:
`_d[alt][host] < _d[alt][switch] + _d[switch][host]`, with all three
lookups defined. -/
def loopFree (d : DistTable) (sw host alt : Node) : Prop :=
  ∃ dah das dsh, dlook d alt host = some dah ∧ dlook d alt sw = some das
    ∧ dlook d sw host = some dsh ∧ dah < das + dsh

instance (d : DistTable) (sw host alt : Node) :
    Decidable (loopFree d sw host alt) := by
  unfold loopFree
  cases dlook d alt host <;> cases dlook d alt sw <;>
    cases dlook d sw host <;> simp <;> infer_instance

/-- The total path cost `_d[switch][alt] + _d[alt][host]` minimized by
`compute_lfas`. -/
def totalCost (d : DistTable) (sw host alt : Node) : Option Nat :=
  (dlook d sw alt).bind fun dsa => (dlook d alt host).map fun dah => dsa + dah

/-- The `noloop` list the candidate scan accumulates: one entry per
candidate that passes the loop-free check (with all lookups defined),
carrying its total cost. -/
def scanSpec (d : DistTable) (sw host : Node) : List Node → List (Node × Nat)
  | [] => []
  | alt :: rest =>
    (match dlook d alt host, dlook d alt sw, dlook d sw host,
        dlook d sw alt with
     | some dah, some das, some dsh, some dsa =>
       if dah < das + dsh then [(alt, dsa + dah)] else []
     | _, _, _, _ => []) ++ scanSpec d sw host rest

/-! ### Helper lemmas -/

/-- Normalization is insensitive to the endpoint order. -/
theorem sortPair_comm (a b : Node) : sortPair a b = sortPair b a := by
  unfold sortPair
  by_cases h1 : b.data < a.data <;> by_cases h2 : a.data < b.data <;>
    simp [h1, h2]
  · exact absurd h2 (asymm h1)
  · have hd : a.data = b.data := by
      rcases lt_trichotomy a.data b.data with h | h | h
      · exact absurd h h2
      · exact h
      · exact absurd h h1
    cases a; cases b; simp_all

/-- Two failure descriptors denote the same (undirected) link. -/
def sameLink (e1 e2 : Node × Node) : Prop :=
  (e1.1 = e2.1 ∧ e1.2 = e2.2) ∨ (e1.1 = e2.2 ∧ e1.2 = e2.1)

instance (e1 e2 : Node × Node) : Decidable (sameLink e1 e2) := by
  unfold sameLink; infer_instance

theorem edgeConnects_iff {u v : Node} {e : Node × Node × Nat} :
    edgeConnects u v e = true ↔
      (e.1 = u ∧ e.2.1 = v) ∨ (e.1 = v ∧ e.2.1 = u) := by
  simp [edgeConnects]

theorem hasEdge_iff {g : Graph} {u v : Node} :
    g.hasEdge u v = true ↔ ∃ e ∈ g.edges, edgeConnects u v e = true := by
  simp [Graph.hasEdge]

/-- Removing one link keeps every other link present. -/
theorem removeEdge_hasEdge_of_not_sameLink {g g' : Graph} {uv : Node × Node}
    {x y : Node} (hrm : removeEdge g uv = .ok g')
    (hxy : g.hasEdge x y = true) (hne : ¬ sameLink uv (x, y)) :
    g'.hasEdge x y = true := by
  unfold removeEdge at hrm
  split at hrm
  · cases hrm
    rcases hasEdge_iff.mp hxy with ⟨e, he, hc⟩
    refine hasEdge_iff.mpr ⟨e, ?_, hc⟩
    simp only [List.mem_filter]
    refine ⟨he, ?_⟩
    rcases edgeConnects_iff.mp hc with ⟨h1, h2⟩ | ⟨h1, h2⟩ <;>
    · simp only [Bool.not_eq_eq_eq_not, Bool.not_true, ← Bool.not_eq_true]
      intro hc'
      rcases edgeConnects_iff.mp hc' with ⟨h1', h2'⟩ | ⟨h1', h2'⟩ <;>
        exact hne (by unfold sameLink; simp_all)
  · cases hrm

/-- Removing a list of pairwise-distinct, present links never raises. -/
theorem removeEdges_ok_of_present :
    ∀ (F : List (Node × Node)) (g : Graph),
    (∀ e ∈ F, g.hasEdge e.1 e.2 = true) →
    F.Pairwise (fun e1 e2 => ¬ sameLink e1 e2) →
    ∃ g', removeEdges g F = .ok g'
  | [], g, _, _ => ⟨g, rfl⟩
  | uv :: rest, g, hpres, hdist => by
    have hhead : g.hasEdge uv.1 uv.2 = true := hpres uv (by simp)
    have hrm : removeEdge g uv =
        .ok ⟨g.nodes, g.edges.filter fun e => !(edgeConnects uv.1 uv.2 e)⟩ := by
      unfold removeEdge
      simp [hhead]
    rcases List.pairwise_cons.mp hdist with ⟨hne, hrest⟩
    obtain ⟨g', hg'⟩ := removeEdges_ok_of_present rest
      ⟨g.nodes, g.edges.filter fun e => !(edgeConnects uv.1 uv.2 e)⟩
      (fun e he => removeEdge_hasEdge_of_not_sameLink hrm
        (hpres e (by simp [he]))
        (by
          have := hne e he
          intro hs
          exact this (by unfold sameLink at hs ⊢; cases e; cases uv; simp_all)))
      hrest
    exact ⟨g', by simp only [removeEdges, hrm]; exact hg'⟩

theorem extractMin_mem :
    ∀ {l : List Entry} {e : Entry} {rest : List Entry},
    extractMin l = some (e, rest) → e ∈ l ∧ ∀ x ∈ rest, x ∈ l
  | [], _, _, h => by simp [extractMin] at h
  | a :: as, e, rest, h => by
    simp only [extractMin] at h
    cases hrec : extractMin as with
    | none =>
      rw [hrec] at h
      cases h
      exact ⟨by simp, by simp⟩
    | some mr =>
      obtain ⟨m, r⟩ := mr
      rw [hrec] at h
      obtain ⟨hm, hr⟩ := extractMin_mem hrec
      by_cases hd : a.dist ≤ m.dist
      · simp only [hd, if_true] at h
        cases h
        exact ⟨by simp, fun x hx => by simp [hx]⟩
      · simp only [hd, if_false] at h
        cases h
        refine ⟨by simp [hm], fun x hx => ?_⟩
        rcases List.mem_cons.mp hx with h1 | h1
        · simp [h1]
        · simp [hr x h1]

theorem mem_neighbors_hasEdge {g : Graph} {u v : Node} {w : Nat}
    (h : (v, w) ∈ g.neighbors u) : g.hasEdge u v = true := by
  unfold Graph.neighbors at h
  rcases List.mem_filterMap.mp h with ⟨e, he, hok⟩
  refine hasEdge_iff.mpr ⟨e, he, ?_⟩
  by_cases h1 : e.1 = u
  · simp only [h1, if_true] at hok
    cases hok
    exact edgeConnects_iff.mpr (Or.inl ⟨h1, rfl⟩)
  · simp only [h1, if_false] at hok
    by_cases h2 : e.2.1 = u
    · simp only [h2, if_true] at hok
      cases hok
      exact edgeConnects_iff.mpr (Or.inr ⟨rfl, h2⟩)
    · simp [h2] at hok

theorem isPath_append {g : Graph} {v : Node} :
    ∀ {p : List Node} {u : Node}, isPath g p = true → p.getLast? = some u →
    g.hasEdge u v = true → isPath g (p ++ [v]) = true
  | [], _, h, _, _ => by simp [isPath] at h
  | [a], u, _, hl, he => by
    simp only [List.getLast?_singleton, Option.some.injEq] at hl
    subst hl
    simp [isPath, he]
  | a :: b :: rest, u, hp, hl, he => by
    simp only [isPath, Bool.and_eq_true] at hp
    have hl' : (b :: rest).getLast? = some u := by
      simpa [List.getLast?] using hl
    have htail := isPath_append (p := b :: rest) hp.2 hl' he
    simpa [isPath, hp.1] using htail

theorem isPath_zip {g : Graph} :
    ∀ {p : List Node}, isPath g p = true →
    ∀ ab ∈ p.zip p.tail, g.hasEdge ab.1 ab.2 = true
  | [], _, ab, hab => by simp at hab
  | [a], _, ab, hab => by simp at hab
  | a :: b :: rest, hp, ab, hab => by
    simp only [isPath, Bool.and_eq_true] at hp
    simp only [List.tail_cons, List.zip_cons_cons, List.mem_cons] at hab
    rcases hab with h | h
    · subst h; exact hp.1
    · exact isPath_zip hp.2 ab (by simpa using h)

theorem validFrom_extend {g : Graph} {src : Node} {e : Entry} {v : Node}
    {w : Nat} (hv : validFrom g src e) (hn : (v, w) ∈ g.neighbors e.node) :
    validFrom g src { node := v, dist := e.dist + w, path := e.path ++ [v] } := by
  obtain ⟨hp, hh, hl⟩ := hv
  have hne : e.path ≠ [] := by
    intro h; rw [h] at hh; simp at hh
  refine ⟨isPath_append hp hl (mem_neighbors_hasEdge hn), ?_, ?_⟩
  · cases hpth : e.path with
    | nil => exact absurd hpth hne
    | cons x xs => rw [hpth] at hh; simpa using hh
  · simp

theorem dijkstraLoop_valid (g : Graph) (src : Node) :
    ∀ (fuel : Nat) (settled pool : List Entry),
    (∀ e ∈ settled, validFrom g src e) →
    (∀ e ∈ pool, validFrom g src e) →
    ∀ e ∈ dijkstraLoop g fuel settled pool, validFrom g src e
  | 0, settled, pool, hs, _ => by
    simpa [dijkstraLoop] using hs
  | fuel + 1, settled, pool, hs, hp => by
    simp only [dijkstraLoop]
    cases hext : extractMin pool with
    | none => simpa using hs
    | some er =>
      obtain ⟨e, rest⟩ := er
      obtain ⟨hmem, hsub⟩ := extractMin_mem hext
      by_cases hdup : settled.any fun s => s.node = e.node
      · simp only [hdup, if_true]
        exact dijkstraLoop_valid g src fuel settled rest hs
          (fun x hx => hp x (hsub x hx))
      · simp only [hdup, if_false]
        refine dijkstraLoop_valid g src fuel (settled ++ [e]) _ ?_ ?_
        · intro x hx
          rcases List.mem_append.mp hx with h | h
          · exact hs x h
          · rw [List.mem_singleton.mp h]; exact hp e hmem
        · intro x hx
          rcases List.mem_append.mp hx with h | h
          · exact hp x (hsub x h)
          · rcases List.mem_map.mp h with ⟨vw, hvw, hxeq⟩
            subst hxeq
            exact validFrom_extend (hp e hmem) (by simpa using hvw)

theorem singleSource_valid (g : Graph) (src : Node) :
    ∀ e ∈ singleSource g src, validFrom g src e := by
  apply dijkstraLoop_valid g src (dijkstraFuel g) [] _
  · intro e he; simp at he
  · intro e he
    rw [List.mem_singleton.mp he]
    exact ⟨by simp [isPath], by simp, by simp⟩

theorem tlook_mem {α : Type} {t : List (Node × α)} {k : Node} {v : α}
    (h : tlook t k = some v) : (k, v) ∈ t := by
  unfold tlook at h
  cases hf : t.find? fun p => p.1 = k with
  | none => rw [hf] at h; simp at h
  | some q =>
    rw [hf] at h
    have hq : q.1 = k := by simpa using List.find?_some hf
    have hmem := List.mem_of_find?_eq_some hf
    simp only [Option.map] at h
    have : q = (k, v) := by
      cases q
      simp only [Option.some.injEq] at h
      simp_all
    rwa [this] at hmem

/-- Every entry of the path table built from `g` is a valid path of `g`
from its source to its destination. -/
theorem pathTableOf_valid {g : Graph} {s t : Node} {p : List Node}
    (h : plook (pathTableOf g) s t = some p) :
    isPath g p = true ∧ p.head? = some s ∧ p.getLast? = some t := by
  unfold plook at h
  cases hrow : tlook (pathTableOf g) s with
  | none => rw [hrow] at h; simp at h
  | some row =>
    rw [hrow] at h
    simp only [Option.some_bind] at h
    have h1 : (s, row) ∈ pathTableOf g := tlook_mem hrow
    unfold pathTableOf at h1
    rcases List.mem_map.mp h1 with ⟨apRow, hap, heq⟩
    obtain ⟨h1eq, h2eq⟩ := Prod.mk.injEq .. ▸ heq
    unfold allPairsDijkstra at hap
    rcases List.mem_map.mp hap with ⟨src, _, hapeq⟩
    have hsrc : src = s := by rw [← h1eq, ← hapeq]
    have hes : apRow.2 = singleSource g s := by rw [← hapeq, hsrc]
    have h2 : (t, p) ∈ row := tlook_mem h
    rw [← h2eq, hes] at h2
    rcases List.mem_map.mp h2 with ⟨e, hemem, heeq⟩
    obtain ⟨hnode, hpath⟩ := Prod.mk.injEq .. ▸ heeq
    have hval := singleSource_valid g s e hemem
    obtain ⟨hp', hh', hl'⟩ := hval
    rw [hpath] at hp' hh' hl'
    rw [hnode] at hl'
    exact ⟨hp', hh', hl'⟩

theorem removeEdge_hasEdge_mono {g g' : Graph} {uv : Node × Node}
    {x y : Node} (hrm : removeEdge g uv = .ok g')
    (h : g'.hasEdge x y = true) : g.hasEdge x y = true := by
  unfold removeEdge at hrm
  split at hrm
  · cases hrm
    rcases hasEdge_iff.mp h with ⟨e, he, hc⟩
    exact hasEdge_iff.mpr ⟨e, (List.mem_filter.mp he).1, hc⟩
  · cases hrm

theorem removeEdge_hasEdge_same {g g' : Graph} {uv : Node × Node}
    {x y : Node} (hrm : removeEdge g uv = .ok g')
    (hs : sameLink uv (x, y)) : g'.hasEdge x y = false := by
  unfold removeEdge at hrm
  split at hrm
  · cases hrm
    rw [← Bool.not_eq_true]
    intro hcontra
    rcases hasEdge_iff.mp hcontra with ⟨e, he, hc⟩
    have hkeep := (List.mem_filter.mp he).2
    have : edgeConnects uv.1 uv.2 e = true := by
      rcases edgeConnects_iff.mp hc with ⟨h1, h2⟩ | ⟨h1, h2⟩ <;>
        rcases hs with ⟨hu1, hu2⟩ | ⟨hu1, hu2⟩ <;>
        · apply edgeConnects_iff.mpr
          simp_all
    simp [this] at hkeep
  · cases hrm

theorem removeEdges_hasEdge_mono :
    ∀ {F : List (Node × Node)} {g g' : Graph} {x y : Node},
    removeEdges g F = .ok g' → g'.hasEdge x y = true → g.hasEdge x y = true
  | [], g, g', x, y, hrm, h => by
    cases hrm; exact h
  | uv :: rest, g, g', x, y, hrm, h => by
    simp only [removeEdges] at hrm
    cases hre : removeEdge g uv with
    | error msg => rw [hre] at hrm; cases hrm
    | ok g1 =>
      rw [hre] at hrm
      have hrm' : removeEdges g1 rest = .ok g' := hrm
      exact removeEdge_hasEdge_mono hre (removeEdges_hasEdge_mono hrm' h)

theorem removeEdges_not_inFailures :
    ∀ {F : List (Node × Node)} {g g' : Graph} {x y : Node},
    removeEdges g F = .ok g' → g'.hasEdge x y = true →
    inFailures F x y = false
  | [], _, _, x, y, _, _ => rfl
  | uv :: rest, g, g', x, y, hrm, h => by
    simp only [removeEdges] at hrm
    cases hre : removeEdge g uv with
    | error msg => rw [hre] at hrm; cases hrm
    | ok g1 =>
      rw [hre] at hrm
      have hrm' : removeEdges g1 rest = .ok g' := hrm
      have hrest : inFailures rest x y = false :=
        removeEdges_not_inFailures hrm' h
      have hg1 : g1.hasEdge x y = true := removeEdges_hasEdge_mono hrm' h
      have hhead : ¬ sameLink uv (x, y) := by
        intro hs
        have := removeEdge_hasEdge_same hre hs
        rw [this] at hg1
        cases hg1
      unfold inFailures at hrest ⊢
      simp only [List.any_cons, Bool.or_eq_false_iff]
      refine ⟨?_, hrest⟩
      simpa [sameLink] using hhead

theorem except_bind_ok {α β : Type} {x : Except String α}
    {f : α → Except String β} {b : β} (h : x.bind f = .ok b) :
    ∃ a, x = .ok a ∧ f a = .ok b := by
  cases x with
  | error e => simp [Except.bind] at h
  | ok a => exact ⟨a, rfl, by simpa [Except.bind] using h⟩

theorem effectiveGraph_hasEdge_mono {topo g' : Graph}
    {failures : Option (List (Node × Node))} {x y : Node}
    (h : effectiveGraph topo failures = .ok g')
    (he : g'.hasEdge x y = true) : topo.hasEdge x y = true := by
  cases failures with
  | none => cases h; exact he
  | some fs => exact removeEdges_hasEdge_mono h he

/-- A successful `dijkstra` call returns exactly the tables of the
failure-reduced graph. -/
theorem dijkstra_ok_paths {topo : Graph}
    {failures : Option (List (Node × Node))} {d : DistTable}
    {paths : PathTable} (hok : dijkstra topo failures = .ok (d, paths)) :
    ∃ g', effectiveGraph topo failures = .ok g'
      ∧ d = distTableOf g' ∧ paths = pathTableOf g' := by
  have hok' : (effectiveGraph topo failures).bind
      (fun graph => (Except.ok (distTableOf graph, pathTableOf graph) :
        Except String (DistTable × PathTable))) = .ok (d, paths) := hok
  obtain ⟨g', hg', hval⟩ := except_bind_ok hok'
  have hpair : (distTableOf g', pathTableOf g') = (d, paths) :=
    Except.ok.inj hval
  exact ⟨g', hg', (congrArg Prod.fst hpair).symm,
    (congrArg Prod.snd hpair).symm⟩

theorem get1_exists {p : List Node} {s t : Node}
    (hh : p.head? = some s) (hl : p.getLast? = some t) (hne : s ≠ t) :
    ∃ nh, p.get? 1 = some nh := by
  cases p with
  | nil => simp at hh
  | cons a q =>
    cases q with
    | nil =>
      simp only [List.head?_cons, Option.some.injEq] at hh
      simp only [List.getLast?_singleton, Option.some.injEq] at hl
      exact absurd (hh ▸ hl ▸ rfl) hne
    | cons b r => exact ⟨b, rfl⟩

theorem nexthopEntries_mem :
    ∀ {hosts : List Node} {paths : PathTable} {sw : Node}
      {entries : List (Node × Node)},
    nexthopEntries paths sw hosts = .ok entries →
    ∀ {host nh : Node}, (host, nh) ∈ entries →
    host ∈ hosts ∧ ∃ p, plook paths sw host = some p ∧ p.get? 1 = some nh
  | [], paths, sw, entries, h, host, nh, hm => by
    cases h; simp at hm
  | host0 :: rest, paths, sw, entries, h, host, nh, hm => by
    cases hl : plook paths sw host0 with
    | none =>
      simp only [nexthopEntries, hl] at h
      have ih := nexthopEntries_mem h hm
      exact ⟨List.mem_cons_of_mem _ ih.1, ih.2⟩
    | some p0 =>
      cases hg : p0.get? 1 with
      | none =>
        simp only [nexthopEntries, hl, hg] at h
        exact Except.noConfusion h
      | some nh0 =>
        simp only [nexthopEntries, hl, hg] at h
        obtain ⟨tail, htail, hcons⟩ := except_bind_ok h
        have hent : (host0, nh0) :: tail = entries := Except.ok.inj hcons
        rw [← hent] at hm
        rcases List.mem_cons.mp hm with heq | hmem
        · obtain ⟨he1, he2⟩ := Prod.mk.injEq .. ▸ heq
          subst he1; subst he2
          exact ⟨by simp, p0, hl, hg⟩
        · have ih := nexthopEntries_mem htail hmem
          exact ⟨List.mem_cons_of_mem _ ih.1, ih.2⟩

theorem nexthopEntries_complete :
    ∀ {hosts : List Node} {paths : PathTable} {sw : Node}
      {entries : List (Node × Node)},
    nexthopEntries paths sw hosts = .ok entries →
    ∀ {host : Node}, host ∈ hosts →
    ∀ {p : List Node}, plook paths sw host = some p →
    ∃ nh, (host, nh) ∈ entries ∧ p.get? 1 = some nh
  | [], _, _, _, _, host, hm, _, _ => by simp at hm
  | host0 :: rest, paths, sw, entries, h, host, hm, p, hp => by
    rcases List.mem_cons.mp hm with heq | hmem
    · subst heq
      cases hg : p.get? 1 with
      | none =>
        simp only [nexthopEntries, hp, hg] at h
        exact Except.noConfusion h
      | some nh0 =>
        simp only [nexthopEntries, hp, hg] at h
        obtain ⟨tail, _, hcons⟩ := except_bind_ok h
        have hent : (host, nh0) :: tail = entries := Except.ok.inj hcons
        exact ⟨nh0, by rw [← hent]; simp, rfl⟩
    · cases hl : plook paths sw host0 with
      | none =>
        simp only [nexthopEntries, hl] at h
        exact nexthopEntries_complete h hmem hp
      | some p0 =>
        cases hg : p0.get? 1 with
        | none =>
          simp only [nexthopEntries, hl, hg] at h
          exact Except.noConfusion h
        | some nh0 =>
          simp only [nexthopEntries, hl, hg] at h
          obtain ⟨tail, htail, hcons⟩ := except_bind_ok h
          have hent : (host0, nh0) :: tail = entries := Except.ok.inj hcons
          obtain ⟨nh, hnmem, hg1⟩ := nexthopEntries_complete htail hmem hp
          exact ⟨nh, by rw [← hent]; exact List.mem_cons_of_mem _ hnmem, hg1⟩

theorem nexthopEntries_ok :
    ∀ {hosts : List Node} {paths : PathTable} {sw : Node},
    (∀ host ∈ hosts, ∀ p, plook paths sw host = some p →
      ∃ nh, p.get? 1 = some nh) →
    ∃ entries, nexthopEntries paths sw hosts = .ok entries
  | [], _, _, _ => ⟨[], rfl⟩
  | host0 :: rest, paths, sw, hyp => by
    cases hl : plook paths sw host0 with
    | none =>
      obtain ⟨entries, hent⟩ := nexthopEntries_ok fun h hm p hp =>
        hyp h (List.mem_cons_of_mem _ hm) p hp
      exact ⟨entries, by simp only [nexthopEntries, hl]; exact hent⟩
    | some p0 =>
      obtain ⟨nh0, hg⟩ := hyp host0 (by simp) p0 hl
      obtain ⟨tail, htail⟩ := nexthopEntries_ok fun h hm p hp =>
        hyp h (List.mem_cons_of_mem _ hm) p hp
      refine ⟨(host0, nh0) :: tail, ?_⟩
      simp only [nexthopEntries, hl, hg, htail]
      rfl

theorem nexthopRows_ok :
    ∀ {sws : List Node} {paths : PathTable} {hosts : List Node}
      {res : List (Node × List (Node × Node))},
    nexthopRows paths hosts sws = .ok res →
    res.map Prod.fst = sws
    ∧ ∀ row ∈ res, nexthopEntries paths row.1 hosts = .ok row.2
  | [], _, _, res, h => by
    cases h; exact ⟨rfl, by simp⟩
  | sw :: rest, paths, hosts, res, h => by
    cases he : nexthopEntries paths sw hosts with
    | error m =>
      simp only [nexthopRows, he] at h
      have h2 : (Except.error m :
          Except String (List (Node × List (Node × Node)))) = .ok res := h
      exact Except.noConfusion h2
    | ok entries =>
      simp only [nexthopRows, he] at h
      have h2 : (nexthopRows paths hosts rest).bind
          (fun tail => Except.ok ((sw, entries) :: tail)) = .ok res := h
      obtain ⟨tail, htail, hcons⟩ := except_bind_ok h2
      have hent : (sw, entries) :: tail = res := Except.ok.inj hcons
      obtain ⟨ihmap, ihrows⟩ := nexthopRows_ok htail
      refine ⟨by rw [← hent]; simp [ihmap], ?_⟩
      intro row hrow
      rw [← hent] at hrow
      rcases List.mem_cons.mp hrow with heq | hmem
      · subst heq; exact he
      · exact ihrows row hmem

theorem nexthopRows_ok_exists :
    ∀ {sws : List Node} {paths : PathTable} {hosts : List Node},
    (∀ sw ∈ sws, ∀ host ∈ hosts, ∀ p, plook paths sw host = some p →
      ∃ nh, p.get? 1 = some nh) →
    ∃ res, nexthopRows paths hosts sws = .ok res
  | [], _, _, _ => ⟨[], rfl⟩
  | sw :: rest, paths, hosts, hyp => by
    obtain ⟨entries, hent⟩ := nexthopEntries_ok (hyp sw (by simp))
    obtain ⟨tail, htail⟩ := nexthopRows_ok_exists fun s hs =>
      hyp s (List.mem_cons_of_mem _ hs)
    refine ⟨(sw, entries) :: tail, ?_⟩
    simp only [nexthopRows, hent, htail]
    rfl

theorem ok_bind {α β : Type} (a : α) (f : α → Except String β) :
    (Except.ok a : Except String α) >>= f = f a := rfl

theorem error_bind {α β : Type} (msg : String) (f : α → Except String β) :
    (Except.error msg : Except String α) >>= f = .error msg := rfl

theorem foldlMin_spec :
    ∀ (xs : List (Node × Nat)) (b : Node × Nat),
    (xs.foldl (fun best y => if y.2 < best.2 then y else best) b) ∈ b :: xs
    ∧ (xs.foldl (fun best y => if y.2 < best.2 then y else best) b).2 ≤ b.2
    ∧ ∀ y ∈ xs,
        (xs.foldl (fun best y => if y.2 < best.2 then y else best) b).2 ≤ y.2
  | [], b => ⟨by simp, le_refl _, by simp⟩
  | y :: ys, b => by
    simp only [List.foldl_cons]
    by_cases hc : y.2 < b.2
    · rw [if_pos hc]
      obtain ⟨ihmem, ihle, ihall⟩ := foldlMin_spec ys y
      refine ⟨?_, le_trans ihle (le_of_lt hc), ?_⟩
      · rcases List.mem_cons.mp ihmem with h | h
        · simp [h]
        · simp [h]
      · intro z hz
        rcases List.mem_cons.mp hz with h | h
        · rw [h]; exact ihle
        · exact ihall z h
    · rw [if_neg hc]
      obtain ⟨ihmem, ihle, ihall⟩ := foldlMin_spec ys b
      refine ⟨?_, ihle, ?_⟩
      · rcases List.mem_cons.mp ihmem with h | h
        · simp [h]
        · simp [h]
      · intro z hz
        rcases List.mem_cons.mp hz with h | h
        · rw [h]; exact le_trans ihle (le_of_not_lt hc)
        · exact ihall z h

theorem minBySnd_spec {l : List (Node × Nat)} {m : Node × Nat}
    (h : minBySnd l = some m) : m ∈ l ∧ ∀ x ∈ l, m.2 ≤ x.2 := by
  cases l with
  | nil => cases h
  | cons x xs =>
    simp only [minBySnd, Option.some.injEq] at h
    obtain ⟨hmem, hle, hall⟩ := foldlMin_spec xs x
    rw [h] at hmem hle hall
    refine ⟨hmem, ?_⟩
    intro z hz
    rcases List.mem_cons.mp hz with hzx | hzs
    · rw [hzx]; exact hle
    · exact hall z hzs

theorem minBySnd_eq_some {l : List (Node × Nat)} (h : l ≠ []) :
    ∃ m, minBySnd l = some m := by
  cases l with
  | nil => cases h rfl
  | cons x xs => exact ⟨_, rfl⟩

theorem scanSpec_mem :
    ∀ {todo : List Node} {d : DistTable} {sw host : Node} {x : Node × Nat},
    x ∈ scanSpec d sw host todo →
    x.1 ∈ todo ∧ loopFree d sw host x.1 ∧ totalCost d sw host x.1 = some x.2
  | [], _, _, _, x, hx => by simp [scanSpec] at hx
  | alt :: rest, d, sw, host, x, hx => by
    simp only [scanSpec, List.mem_append] at hx
    rcases hx with hx | hx
    · cases hdah : dlook d alt host <;> rw [hdah] at hx
      case none => simp at hx
      case some dah =>
      cases hdas : dlook d alt sw <;> rw [hdas] at hx
      case none => simp at hx
      case some das =>
      cases hdsh : dlook d sw host <;> rw [hdsh] at hx
      case none => simp at hx
      case some dsh =>
      cases hdsa : dlook d sw alt <;> rw [hdsa] at hx
      case none => simp at hx
      case some dsa =>
      by_cases hc : dah < das + dsh
      · simp only [hc, if_true, List.mem_singleton] at hx
        subst hx
        refine ⟨by simp, ⟨dah, das, dsh, hdah, hdas, hdsh, hc⟩, ?_⟩
        simp [totalCost, hdsa, hdah]
      · simp [hc] at hx
    · obtain ⟨h1, h2, h3⟩ := scanSpec_mem hx
      exact ⟨List.mem_cons_of_mem _ h1, h2, h3⟩

theorem lfaScan_spec :
    ∀ {todo : List Node} {d : DistTable} {sw host : Node}
      {noloop nl : List (Node × Nat)} {cur c : Option Node},
    lfaScan d sw host todo noloop cur = .ok (nl, c) →
    nl = noloop ++ scanSpec d sw host todo
    ∧ (cur = (if noloop.isEmpty then none
          else (minBySnd noloop).map Prod.fst) →
        c = if nl.isEmpty then none else (minBySnd nl).map Prod.fst)
    ∧ ∀ alt ∈ todo, loopFree d sw host alt →
        ∃ t, totalCost d sw host alt = some t
          ∧ (alt, t) ∈ scanSpec d sw host todo
  | [], d, sw, host, noloop, nl, cur, c, h => by
    obtain ⟨h1, h2⟩ := Prod.mk.injEq .. ▸ Except.ok.inj h
    subst h1; subst h2
    exact ⟨by simp [scanSpec], fun hc => by simpa [scanSpec] using hc,
      by simp⟩
  | alt :: rest, d, sw, host, noloop, nl, cur, c, h => by
    cases hdah : dlook d alt host with
    | none =>
      simp only [lfaScan, dRequire, hdah] at h
      exact Except.noConfusion h
    | some dah =>
    cases hdas : dlook d alt sw with
    | none =>
      simp only [lfaScan, dRequire, hdah, hdas, ok_bind] at h
      exact Except.noConfusion h
    | some das =>
    cases hdsh : dlook d sw host with
    | none =>
      simp only [lfaScan, dRequire, hdah, hdas, hdsh, ok_bind] at h
      exact Except.noConfusion h
    | some dsh =>
    by_cases hc : dah < das + dsh
    · cases hdsa : dlook d sw alt with
      | none =>
        simp only [lfaScan, dRequire, hdah, hdas, hdsh, hdsa, ok_bind,
          error_bind] at h
        rw [if_pos hc] at h
        exact Except.noConfusion h
      | some dsa =>
        simp only [lfaScan, dRequire, hdah, hdas, hdsh, hdsa, ok_bind,
          pure_bind] at h
        rw [if_pos hc] at h
        have hne : ¬ ((noloop ++ [(alt, dsa + dah)]).isEmpty = true) := by
          simp
        rw [if_neg hne] at h
        obtain ⟨ih1, ih2, ih3⟩ := lfaScan_spec h
        have hspec : scanSpec d sw host (alt :: rest)
            = (alt, dsa + dah) :: scanSpec d sw host rest := by
          simp [scanSpec, hdah, hdas, hdsh, hdsa, hc]
        refine ⟨by rw [ih1, hspec]; simp, fun _ => ?_, ?_⟩
        · exact ih2 (by rw [if_neg hne])
        · intro a ha hlf
          rcases List.mem_cons.mp ha with rfl | hmem
          · refine ⟨dsa + dah, by simp [totalCost, hdsa, hdah], ?_⟩
            rw [hspec]; simp
          · obtain ⟨t, ht, hts⟩ := ih3 a hmem hlf
            exact ⟨t, ht, by rw [hspec]; exact List.mem_cons_of_mem _ hts⟩
    · simp only [lfaScan, dRequire, hdah, hdas, hdsh, ok_bind,
        pure_bind] at h
      rw [if_neg hc] at h
      have hspec : scanSpec d sw host (alt :: rest)
          = scanSpec d sw host rest := by
        cases hdsa : dlook d sw alt <;>
          simp [scanSpec, hdah, hdas, hdsh, hdsa, hc]
      have hnotpass : ∀ hlf : loopFree d sw host alt, False := by
        intro hlf
        obtain ⟨dah2, das2, dsh2, h1, h2, h3, h4⟩ := hlf
        rw [hdah] at h1; rw [hdas] at h2; rw [hdsh] at h3
        cases h1; cases h2; cases h3
        exact hc h4
      by_cases hemp : noloop.isEmpty = true
      · rw [if_pos hemp] at h
        obtain ⟨ih1, ih2, ih3⟩ := lfaScan_spec h
        refine ⟨by rw [ih1, hspec], fun hcur => ih2 hcur, ?_⟩
        intro a ha hlf
        rcases List.mem_cons.mp ha with rfl | hmem
        · exact absurd hlf (fun hl => hnotpass hl)
        · obtain ⟨t, ht, hts⟩ := ih3 a hmem hlf
          exact ⟨t, ht, by rw [hspec]; exact hts⟩
      · rw [if_neg hemp] at h
        obtain ⟨ih1, ih2, ih3⟩ := lfaScan_spec h
        refine ⟨by rw [ih1, hspec], fun _ => ?_, ?_⟩
        · exact ih2 (by rw [if_neg hemp])
        · intro a ha hlf
          rcases List.mem_cons.mp ha with rfl | hmem
          · exact absurd hlf (fun hl => hnotpass hl)
          · obtain ⟨t, ht, hts⟩ := ih3 a hmem hlf
            exact ⟨t, ht, by rw [hspec]; exact hts⟩

theorem lfaHosts_spec :
    ∀ {dests : List (Node × Node)} {d : DistTable} {topo : Graph}
      {switches : List Node} {sw : Node} {assoc : List (Node × Node)},
    lfaHosts d topo switches sw dests = .ok assoc →
    (∀ {host alt : Node}, (host, alt) ∈ assoc → host ∈ dests.map Prod.fst)
    ∧ ∀ {host nexthop : Node}, (host, nexthop) ∈ dests → nexthop ≠ host →
      (dests.map Prod.fst).Nodup →
      ((∃ alt, (host, alt) ∈ assoc) ↔
        ∃ cand ∈ lfaOthers topo switches sw nexthop,
          loopFree d sw host cand)
      ∧ ∀ alt, (host, alt) ∈ assoc →
          alt ∈ lfaOthers topo switches sw nexthop
          ∧ loopFree d sw host alt
          ∧ ∃ t, totalCost d sw host alt = some t
            ∧ ∀ cand ∈ lfaOthers topo switches sw nexthop,
                loopFree d sw host cand →
                ∃ tc, totalCost d sw host cand = some tc ∧ t ≤ tc
  | [], d, topo, switches, sw, assoc, h => by
    have hassoc : ([] : List (Node × Node)) = assoc := Except.ok.inj h
    subst hassoc
    exact ⟨by simp, by simp⟩
  | (host0, nexthop0) :: rest, d, topo, switches, sw, assoc, h => by
    by_cases heq : nexthop0 = host0
    · simp only [lfaHosts, if_pos heq] at h
      obtain ⟨IH1, IH2⟩ := lfaHosts_spec h
      refine ⟨?_, ?_⟩
      · intro host alt hm
        exact List.mem_cons_of_mem _ (IH1 hm)
      · intro host nexthop hdm hne hnodup
        rcases List.mem_cons.mp hdm with hhead | htl
        · obtain ⟨he1, he2⟩ := Prod.mk.injEq .. ▸ hhead
          subst he1; subst he2
          exact absurd heq hne
        · refine IH2 htl hne ?_
          rw [List.map_cons] at hnodup
          exact (List.nodup_cons.mp hnodup).2
    · simp only [lfaHosts, if_neg heq] at h
      obtain ⟨pr, hscan, h2⟩ := except_bind_ok h
      obtain ⟨nl0, cur0⟩ := pr
      have h3 : (lfaHosts d topo switches sw rest).bind
          (fun tail => match cur0 with
            | none => Except.ok tail
            | some alt => Except.ok ((host0, alt) :: tail)) = .ok assoc := h2
      obtain ⟨tail, htail, h4⟩ := except_bind_ok h3
      obtain ⟨IH1, IH2⟩ := lfaHosts_spec htail
      obtain ⟨s1, s2, s3⟩ := lfaScan_spec hscan
      have hnl0 : nl0 = scanSpec d sw host0
          (lfaOthers topo switches sw nexthop0) := by simpa using s1
      have hcur : cur0 = if nl0.isEmpty = true then none
          else (minBySnd nl0).map Prod.fst := s2 (by simp)
      cases cur0 with
      | none =>
        have hassoc : tail = assoc := Except.ok.inj h4
        subst hassoc
        have hempty : nl0 = [] := by
          cases hn : nl0 with
          | nil => rfl
          | cons x xs =>
            rw [hn] at hcur
            simp [minBySnd] at hcur
        refine ⟨?_, ?_⟩
        · intro host alt hm
          exact List.mem_cons_of_mem _ (IH1 hm)
        · intro host nexthop hdm hne hnodup
          have hnodup2 : host0 ∉ rest.map Prod.fst
              ∧ (rest.map Prod.fst).Nodup := by
            rw [List.map_cons] at hnodup
            exact List.nodup_cons.mp hnodup
          rcases List.mem_cons.mp hdm with hhead | htl
          · obtain ⟨he1, he2⟩ := Prod.mk.injEq .. ▸ hhead
            subst he1; subst he2
            constructor
            · constructor
              · rintro ⟨alt, halt⟩
                exact absurd (IH1 halt) hnodup2.1
              · rintro ⟨cand, hcand, hlf⟩
                obtain ⟨t, _, hts⟩ := s3 cand hcand hlf
                rw [← hnl0, hempty] at hts
                simp at hts
            · intro alt halt
              exact absurd (IH1 halt) hnodup2.1
          · exact IH2 htl hne hnodup2.2
      | some alt0 =>
        have hassoc : (host0, alt0) :: tail = assoc := Except.ok.inj h4
        subst hassoc
        have hnonempty : ¬ (nl0.isEmpty = true) := by
          intro hn
          rw [if_pos hn] at hcur
          cases hcur
        rw [if_neg hnonempty] at hcur
        obtain ⟨m, hm⟩ := minBySnd_eq_some (l := nl0)
          (fun hnil => hnonempty (by rw [hnil]; rfl))
        rw [hm] at hcur
        have halt0 : alt0 = m.1 := by
          simpa using hcur
        obtain ⟨hmmem, hmmin⟩ := minBySnd_spec hm
        refine ⟨?_, ?_⟩
        · intro host alt hm2
          rcases List.mem_cons.mp hm2 with hhead | htl2
          · obtain ⟨he1, _⟩ := Prod.mk.injEq .. ▸ hhead
            subst he1
            simp
          · exact List.mem_cons_of_mem _ (IH1 htl2)
        · intro host nexthop hdm hne hnodup
          have hnodup2 : host0 ∉ rest.map Prod.fst
              ∧ (rest.map Prod.fst).Nodup := by
            rw [List.map_cons] at hnodup
            exact List.nodup_cons.mp hnodup
          rcases List.mem_cons.mp hdm with hhead | htl
          · obtain ⟨he1, he2⟩ := Prod.mk.injEq .. ▸ hhead
            subst he1; subst he2
            obtain ⟨hm1, hm2, hm3⟩ := scanSpec_mem (hnl0 ▸ hmmem)
            constructor
            · constructor
              · intro _
                exact ⟨m.1, hm1, hm2⟩
              · intro _
                exact ⟨alt0, by simp⟩
            · intro alt halt
              rcases List.mem_cons.mp halt with hhead2 | htl2
              · obtain ⟨_, he2⟩ := Prod.mk.injEq .. ▸ hhead2
                subst he2
                rw [halt0]
                refine ⟨hm1, hm2, m.2, hm3, ?_⟩
                intro cand hcand hlf
                obtain ⟨tc, htc, htcs⟩ := s3 cand hcand hlf
                exact ⟨tc, htc, hmmin _ (hnl0 ▸ htcs)⟩
              · exact absurd (IH1 htl2) hnodup2.1
          · have hhostne : host ≠ host0 := by
              intro hcontra
              subst hcontra
              exact hnodup2.1 (List.mem_map_of_mem _ htl)
            obtain ⟨ihiff, ihmin⟩ := IH2 htl hne hnodup2.2
            constructor
            · constructor
              · rintro ⟨alt, halt⟩
                rcases List.mem_cons.mp halt with hhead2 | htl2
                · obtain ⟨he1, _⟩ := Prod.mk.injEq .. ▸ hhead2
                  exact absurd he1 hhostne
                · exact ihiff.mp ⟨alt, htl2⟩
              · intro hex
                obtain ⟨alt, halt⟩ := ihiff.mpr hex
                exact ⟨alt, List.mem_cons_of_mem _ halt⟩
            · intro alt halt
              rcases List.mem_cons.mp halt with hhead2 | htl2
              · obtain ⟨he1, _⟩ := Prod.mk.injEq .. ▸ hhead2
                exact absurd he1 hhostne
              · exact ihmin alt htl2

theorem lfaHosts_sound :
    ∀ {dests : List (Node × Node)} {d : DistTable} {topo : Graph}
      {switches : List Node} {sw : Node} {assoc : List (Node × Node)},
    lfaHosts d topo switches sw dests = .ok assoc →
    ∀ {host alt : Node}, (host, alt) ∈ assoc → loopFree d sw host alt
  | [], d, topo, switches, sw, assoc, h, host, alt, hm => by
    have hassoc : ([] : List (Node × Node)) = assoc := Except.ok.inj h
    subst hassoc
    simp at hm
  | (host0, nexthop0) :: rest, d, topo, switches, sw, assoc, h, host, alt,
      hm => by
    by_cases heq : nexthop0 = host0
    · simp only [lfaHosts, if_pos heq] at h
      exact lfaHosts_sound h hm
    · simp only [lfaHosts, if_neg heq] at h
      obtain ⟨pr, hscan, hrest⟩ := except_bind_ok h
      obtain ⟨nl0, cur0⟩ := pr
      have h3 : (lfaHosts d topo switches sw rest).bind
          (fun tail => match cur0 with
            | none => Except.ok tail
            | some a => Except.ok ((host0, a) :: tail)) = .ok assoc := hrest
      obtain ⟨tail, htail, h4⟩ := except_bind_ok h3
      obtain ⟨s1, s2, _⟩ := lfaScan_spec hscan
      cases cur0 with
      | none =>
        have hassoc : tail = assoc := Except.ok.inj h4
        subst hassoc
        exact lfaHosts_sound htail hm
      | some alt0 =>
        have hassoc : (host0, alt0) :: tail = assoc := Except.ok.inj h4
        subst hassoc
        rcases List.mem_cons.mp hm with hhead | htl
        · obtain ⟨he1, he2⟩ := Prod.mk.injEq .. ▸ hhead
          subst he1; subst he2
          have hcur : some alt = if nl0.isEmpty = true then none
              else (minBySnd nl0).map Prod.fst := s2 (by simp)
          have hnonempty : ¬ (nl0.isEmpty = true) := by
            intro hn
            rw [if_pos hn] at hcur
            cases hcur
          rw [if_neg hnonempty] at hcur
          obtain ⟨m, hmn⟩ := minBySnd_eq_some (l := nl0)
            (fun hnil => hnonempty (by rw [hnil]; rfl))
          rw [hmn] at hcur
          have halt : alt = m.1 := by simpa using hcur
          have hmmem := (minBySnd_spec hmn).1
          rw [halt]
          exact (scanSpec_mem (by simpa using (s1 ▸ hmmem))).2.1
        · exact lfaHosts_sound htail htl

theorem lfaRows_mem :
    ∀ {nexthops : List (Node × List (Node × Node))} {d : DistTable}
      {topo : Graph} {switches : List Node}
      {lfas : List (Node × List (Node × Node))},
    lfaRows d topo switches nexthops = .ok lfas →
    (∀ row ∈ lfas, ∃ dests, (row.1, dests) ∈ nexthops
        ∧ lfaHosts d topo switches row.1 dests = .ok row.2)
    ∧ ∀ swdest ∈ nexthops, ∃ assoc, (swdest.1, assoc) ∈ lfas
        ∧ lfaHosts d topo switches swdest.1 swdest.2 = .ok assoc
  | [], _, _, _, lfas, h => by
    have hl : ([] : List (Node × List (Node × Node))) = lfas :=
      Except.ok.inj h
    subst hl
    exact ⟨by simp, by simp⟩
  | (sw, dests) :: rest, d, topo, switches, lfas, h => by
    cases hrow : lfaHosts d topo switches sw dests with
    | error m =>
      simp only [lfaRows, hrow, error_bind] at h
      exact Except.noConfusion h
    | ok assoc =>
      simp only [lfaRows, hrow, ok_bind] at h
      obtain ⟨tail, htail, hcons⟩ := except_bind_ok h
      have hl : (sw, assoc) :: tail = lfas := Except.ok.inj hcons
      subst hl
      obtain ⟨IH1, IH2⟩ := lfaRows_mem htail
      constructor
      · intro row hr
        rcases List.mem_cons.mp hr with hh | ht
        · subst hh
          exact ⟨dests, by simp, hrow⟩
        · obtain ⟨ds, h1, h2⟩ := IH1 row ht
          exact ⟨ds, List.mem_cons_of_mem _ h1, h2⟩
      · intro swdest hmem
        rcases List.mem_cons.mp hmem with hh | ht
        · subst hh
          exact ⟨assoc, by simp, hrow⟩
        · obtain ⟨a, h1, h2⟩ := IH2 swdest ht
          exact ⟨a, List.mem_cons_of_mem _ h1, h2⟩

theorem computeLfas_ok {topo : Graph} {switches : List Node}
    {failures : Option (List (Node × Node))}
    {nexthops lfas : List (Node × List (Node × Node))}
    (hok : computeLfas topo switches failures nexthops = .ok lfas)
    {d : DistTable} {paths : PathTable}
    (hdij : dijkstra topo failures = .ok (d, paths)) :
    lfaRows d topo switches nexthops = .ok lfas := by
  have hok' : (dijkstra topo failures).bind
      (fun dp => lfaRows dp.1 topo switches nexthops) = .ok lfas := hok
  rw [hdij] at hok'
  exact hok'

theorem mem_insertSorted {x y : Node} :
    ∀ {l : List Node}, y ∈ insertSorted x l ↔ y = x ∨ y ∈ l
  | [] => by simp [insertSorted]
  | z :: zs => by
    simp only [insertSorted]
    by_cases hc : z.data < x.data
    · rw [if_pos hc]
      simp only [List.mem_cons, mem_insertSorted (l := zs)]
      tauto
    · rw [if_neg hc]
      simp only [List.mem_cons]

theorem mem_sortNodes {y : Node} :
    ∀ {l : List Node}, y ∈ sortNodes l ↔ y ∈ l
  | [] => by simp [sortNodes]
  | x :: xs => by
    simp only [sortNodes, mem_insertSorted, List.mem_cons,
      mem_sortNodes (l := xs)]

theorem getNexthopIndex_inj {hosts : List Node} {h1 h2 : Node}
    (m1 : h1 ∈ hosts) (m2 : h2 ∈ hosts)
    (he : getNexthopIndex hosts h1 = getNexthopIndex hosts h2) :
    h1 = h2 := by
  unfold getNexthopIndex at he
  have hm1 : h1 ∈ sortNodes hosts := mem_sortNodes.mpr m1
  have hm2 : h2 ∈ sortNodes hosts := mem_sortNodes.mpr m2
  have hl1 := List.indexOf_lt_length.mpr hm1
  have hl2 := List.indexOf_lt_length.mpr hm2
  have g1 := List.indexOf_get hl1
  have g2 := List.indexOf_get hl2
  rw [← g1, ← g2]
  congr 1
  exact Fin.ext he

theorem nodup_keys_eq {α : Type} :
    ∀ {l : List (Node × α)}, (l.map Prod.fst).Nodup →
    ∀ {a b : Node × α}, a ∈ l → b ∈ l → a.1 = b.1 → a = b
  | [], _, a, b, ha, _, _ => by simp at ha
  | x :: xs, hnd, a, b, ha, hb, hab => by
    rw [List.map_cons] at hnd
    obtain ⟨hx, hxs⟩ := List.nodup_cons.mp hnd
    rcases List.mem_cons.mp ha with ha1 | ha1 <;>
      rcases List.mem_cons.mp hb with hb1 | hb1
    · rw [ha1, hb1]
    · subst ha1
      exact absurd (hab ▸ List.mem_map_of_mem Prod.fst hb1) hx
    · subst hb1
      exact absurd (hab ▸ List.mem_map_of_mem Prod.fst ha1) hx
    · exact nodup_keys_eq hxs ha1 hb1 hab

theorem nexthopEntries_keys_sublist :
    ∀ {hosts : List Node} {paths : PathTable} {sw : Node}
      {entries : List (Node × Node)},
    nexthopEntries paths sw hosts = .ok entries →
    (entries.map Prod.fst).Sublist hosts
  | [], _, _, entries, h => by
    have : ([] : List (Node × Node)) = entries := Except.ok.inj h
    subst this
    simp
  | host0 :: rest, paths, sw, entries, h => by
    cases hl : plook paths sw host0 with
    | none =>
      simp only [nexthopEntries, hl] at h
      exact (nexthopEntries_keys_sublist h).cons host0
    | some p0 =>
      cases hg : p0.get? 1 with
      | none =>
        simp only [nexthopEntries, hl, hg] at h
        exact Except.noConfusion h
      | some nh0 =>
        simp only [nexthopEntries, hl, hg] at h
        obtain ⟨tail, htail, hcons⟩ := except_bind_ok h
        have hent : (host0, nh0) :: tail = entries := Except.ok.inj hcons
        subst hent
        simpa using (nexthopEntries_keys_sublist htail).cons₂ host0

theorem updateNexthops_ok {topo : Graph} {switches hosts : List Node}
    {ports : Node → Node → Nat} {failures : Option (List (Node × Node))}
    {writes : List RegWrite}
    (hok : updateNexthops topo switches hosts ports failures
      = .ok writes) :
    ∃ nexthops lfas,
      computeNexthops topo switches hosts failures = .ok nexthops
      ∧ computeLfas topo switches failures nexthops = .ok lfas
      ∧ writes = nexthops.flatMap fun row =>
          switchWrites hosts ports lfas row.1 row.2 := by
  have hok' : (computeNexthops topo switches hosts failures).bind
      (fun nexthops => (computeLfas topo switches failures nexthops).bind
        fun lfas => Except.ok (nexthops.flatMap fun row =>
          switchWrites hosts ports lfas row.1 row.2)) = .ok writes := hok
  obtain ⟨nexthops, hnh, h2⟩ := except_bind_ok hok'
  obtain ⟨lfas, hlf, h3⟩ := except_bind_ok h2
  exact ⟨nexthops, lfas, hnh, hlf, (Except.ok.inj h3).symm⟩

theorem altWrites_fallback :
    ∀ {dests : List (Node × Node)} {hosts : List Node}
      {ports : Node → Node → Nat}
      {lfas : List (Node × List (Node × Node))} {sw host nexthop : Node},
    (host, nexthop) ∈ dests → host ≠ nexthop →
    ((tlook lfas sw).bind fun row => tlook row host) = none →
    RegWrite.alternative sw (getNexthopIndex hosts host)
        (ports sw nexthop)
      ∈ altWrites hosts ports lfas sw dests
  | [], _, _, _, _, _, _, hm, _, _ => by simp at hm
  | (host0, nexthop0) :: rest, hosts, ports, lfas, sw, host, nexthop,
      hm, hne, hnone => by
    rcases List.mem_cons.mp hm with hh | ht
    · obtain ⟨he1, he2⟩ := Prod.mk.injEq .. ▸ hh
      subst he1; subst he2
      simp only [altWrites, hnone]
      rw [if_neg hne]
      exact List.mem_cons_self _ _
    · by_cases heq : host0 = nexthop0
      · simp only [altWrites, if_pos heq]
        exact altWrites_fallback ht hne hnone
      · simp only [altWrites, if_neg heq]
        exact List.mem_cons_of_mem _ (altWrites_fallback ht hne hnone)

theorem altWrites_mem_char :
    ∀ {dests : List (Node × Node)} {hosts : List Node}
      {ports : Node → Node → Nat}
      {lfas : List (Node × List (Node × Node))} {sw : Node} {w : RegWrite},
    w ∈ altWrites hosts ports lfas sw dests →
    ∃ h n lfaNH, (h, n) ∈ dests ∧ h ≠ n
      ∧ w = RegWrite.alternative sw (getNexthopIndex hosts h)
          (ports sw lfaNH)
  | [], _, _, _, _, w, hw => by simp [altWrites] at hw
  | (host0, nexthop0) :: rest, hosts, ports, lfas, sw, w, hw => by
    by_cases heq : host0 = nexthop0
    · simp only [altWrites, if_pos heq] at hw
      obtain ⟨h, n, lfaNH, hm, hne, hweq⟩ := altWrites_mem_char hw
      exact ⟨h, n, lfaNH, List.mem_cons_of_mem _ hm, hne, hweq⟩
    · simp only [altWrites, if_neg heq] at hw
      rcases List.mem_cons.mp hw with hh | ht
      · refine ⟨host0, nexthop0, _, by simp, heq, hh⟩
      · obtain ⟨h, n, lfaNH, hm, hne, hweq⟩ := altWrites_mem_char ht
        exact ⟨h, n, lfaNH, List.mem_cons_of_mem _ hm, hne, hweq⟩

theorem switchWrites_mem {hosts : List Node} {ports : Node → Node → Nat}
    {lfas : List (Node × List (Node × Node))} {sw : Node}
    {dests : List (Node × Node)} {w : RegWrite}
    (hw : w ∈ switchWrites hosts ports lfas sw dests) :
    (∃ h n, (h, n) ∈ dests
      ∧ w = RegWrite.primary sw (getNexthopIndex hosts h) (ports sw n))
    ∨ w ∈ altWrites hosts ports lfas sw dests := by
  rcases List.mem_append.mp hw with h1 | h1
  · rcases List.mem_map.mp h1 with ⟨hn, hmem, heq⟩
    exact Or.inl ⟨hn.1, hn.2, by simpa using hmem, heq.symm⟩
  · exact Or.inr h1

/-! ### Claims -/

/-- C3: the debounce-coalescing claim fails on the code.  `process_packet`
sleeps with a thread-blocking `time.sleep` inside the sniff callback, so
two distinct failure notifications arriving within one delay window are
handled strictly serially: the burst `[e1, e2]` with `e1 = (s1, s2)` and
`e2 = (s2, s3)` produces two recomputations, the first of which uses the
failure set `{e1}` only — not a single recomputation over `{e1, e2}`. -/
theorem debounce_burst_two_recomputations :
    (processBurst ⟨[]⟩ [("s1", "s2"), ("s2", "s3")]).2
      = [[("s1", "s2")], [("s1", "s2"), ("s2", "s3")]]
    ∧ (processBurst ⟨[]⟩ [("s1", "s2"), ("s2", "s3")]).2.length ≠ 1 := by
  constructor
  · decide
  · decide

/-- C4: duplicate failure notifications are idempotent.  Link identity is
normalized to a sorted endpoint pair (insensitive to endpoint order); a
notification for a link already in `failed_links` leaves the state
unchanged and triggers no recomputation; and submitting the same link a
second time (in either endpoint order) yields the same failure set and
no second recomputation. -/
theorem duplicate_notification_idempotent (s : DebounceState) (a b : Node) :
    sortPair a b = sortPair b a
    ∧ (s.failed_links.contains (sortPair a b) = true →
        processFailure s (a, b) = (s, none))
    ∧ processFailure (processFailure s (a, b)).1 (b, a)
        = ((processFailure s (a, b)).1, none) := by
  refine ⟨sortPair_comm a b, ?_, ?_⟩
  · intro h
    have h' : sortPair a b ∈ s.failed_links := by simpa using h
    simp [processFailure, h']
  · by_cases h : sortPair a b ∈ s.failed_links
    · simp [processFailure, h, sortPair_comm b a]
    · simp [processFailure, h, sortPair_comm b a]

/-- C6: every `(host, nexthop)` pair recorded by `compute_nexthops` for a
switch takes `nexthop` from the second element of the computed shortest
path from switch to host (the node immediately after the switch, which
heads the path), and `nexthop = host` only when switch and host are
directly adjacent in the topology (consecutive path nodes being
adjacent). -/
theorem primary_nexthop_second_element
    {topo : Graph} {switches hosts : List Node}
    {failures : Option (List (Node × Node))}
    {res : List (Node × List (Node × Node))}
    (hok : computeNexthops topo switches hosts failures = .ok res)
    {sw : Node} {entries : List (Node × Node)}
    (hrow : (sw, entries) ∈ res)
    {host nh : Node} (hmem : (host, nh) ∈ entries) :
    ∃ dp p, dijkstra topo failures = .ok dp
      ∧ plook dp.2 sw host = some p
      ∧ p.head? = some sw ∧ p.get? 1 = some nh
      ∧ (nh = host → topo.hasEdge sw host = true) := by
  have hok' : (dijkstra topo failures).bind
      (fun dp => nexthopRows dp.2 hosts switches) = .ok res := hok
  obtain ⟨dp, hdij, hrows⟩ := except_bind_ok hok'
  obtain ⟨d0, paths0⟩ := dp
  obtain ⟨_, hrowsok⟩ := nexthopRows_ok hrows
  have hent := hrowsok (sw, entries) hrow
  obtain ⟨_, p, hp, hg1⟩ := nexthopEntries_mem hent hmem
  obtain ⟨g', hg', _, hpaths⟩ := dijkstra_ok_paths hdij
  rw [hpaths] at hp
  obtain ⟨hpath, hh, _⟩ := pathTableOf_valid hp
  refine ⟨(d0, paths0), p, hdij, by rw [hpaths]; exact hp, hh, hg1,
    fun hnh => ?_⟩
  cases p with
  | nil => simp at hh
  | cons a q =>
    cases q with
    | nil => simp at hg1
    | cons b r =>
      have ha : a = sw := by simpa using hh
      have hb : b = nh := by simpa using hg1
      have hedge : g'.hasEdge a b = true :=
        isPath_zip hpath (a, b) (by simp)
      rw [ha, hb, hnh] at hedge
      exact effectiveGraph_hasEdge_mono hg' hedge

/-- C7: unreachable pairs are skipped, never fatal.  When the path table
has no entry from a switch to a host, `compute_nexthops` omits exactly
that pair but still succeeds and produces an entry for every (switch,
host) pair the table covers. -/
theorem unreachable_pairs_skipped
    {topo : Graph} {switches hosts : List Node}
    {failures : Option (List (Node × Node))} {d : DistTable}
    {paths : PathTable}
    (hdij : dijkstra topo failures = .ok (d, paths))
    (hdisj : ∀ sw ∈ switches, ∀ h ∈ hosts, sw ≠ h) :
    ∃ res, computeNexthops topo switches hosts failures = .ok res
      ∧ res.map Prod.fst = switches
      ∧ ∀ row ∈ res, ∀ host ∈ hosts,
          (plook paths row.1 host = none → ∀ nh, (host, nh) ∉ row.2)
          ∧ ∀ p, plook paths row.1 host = some p →
              ∃ nh, (host, nh) ∈ row.2 ∧ p.get? 1 = some nh := by
  obtain ⟨g', hg', _, hpaths⟩ := dijkstra_ok_paths hdij
  have hsecond : ∀ sw ∈ switches, ∀ host ∈ hosts, ∀ p,
      plook paths sw host = some p → ∃ nh, p.get? 1 = some nh := by
    intro sw hsw host hhost p hp
    rw [hpaths] at hp
    obtain ⟨_, hh, hl⟩ := pathTableOf_valid hp
    exact get1_exists hh hl (hdisj sw hsw host hhost)
  obtain ⟨res, hres⟩ := nexthopRows_ok_exists hsecond
  obtain ⟨hmap, hrows⟩ := nexthopRows_ok hres
  refine ⟨res, ?_, hmap, ?_⟩
  · show (dijkstra topo failures).bind
      (fun dp => nexthopRows dp.2 hosts switches) = .ok res
    rw [hdij]
    simpa [Except.bind] using hres
  · intro row hrow host hhost
    have hent := hrows row hrow
    constructor
    · intro hnone nh hmem
      obtain ⟨_, p, hp, _⟩ := nexthopEntries_mem hent hmem
      rw [hnone] at hp
      cases hp
    · intro p hp
      exact nexthopEntries_complete hent hhost hp

/-- Witness for C6: in the failure-free ring, switch `s1`'s entry for its
own host `h1` has next hop `h1` itself (the path's second element), and
they are adjacent. -/
theorem primary_nexthop_second_element_witness :
    ∃ dp p, dijkstra ringTopo none = .ok dp
      ∧ plook dp.2 "s1" "h1" = some p
      ∧ p.head? = some "s1" ∧ p.get? 1 = some "h1"
      ∧ ("h1" = "h1" → ringTopo.hasEdge "s1" "h1" = true) := by
  have hok : computeNexthops ringTopo ["s1", "s2", "s3"]
      ["h1", "h2", "h3"] none
      = .ok [("s1", [("h1", "h1"), ("h2", "s2"), ("h3", "s3")]),
             ("s2", [("h1", "s1"), ("h2", "h2"), ("h3", "s3")]),
             ("s3", [("h1", "s1"), ("h2", "s2"), ("h3", "h3")])] := rfl
  have hrow : ("s1", [("h1", "h1"), ("h2", "s2"), ("h3", "s3")])
      ∈ [("s1", [("h1", "h1"), ("h2", "s2"), ("h3", "s3")]),
         ("s2", [("h1", "s1"), ("h2", "h2"), ("h3", "s3")]),
         ("s3", [("h1", "s1"), ("h2", "s2"), ("h3", "h3")])] := by simp
  have hmem : (("h1", "h1") : Node × Node)
      ∈ [("h1", "h1"), ("h2", "s2"), ("h3", "s3")] := by simp
  exact primary_nexthop_second_element hok hrow hmem

/-- Witness for C7: in the disconnected two-island topology, switch `s1`
cannot reach host `h2`; the pair is omitted while every reachable pair
gets its entry, and `compute_nexthops` still succeeds. -/
theorem unreachable_pairs_skipped_witness :
    ∃ res, computeNexthops splitTopo ["s1", "s2"] ["h1", "h2"] none = .ok res
      ∧ res.map Prod.fst = ["s1", "s2"]
      ∧ ∀ row ∈ res, ∀ host ∈ ["h1", "h2"],
          (plook (pathTableOf splitTopo) row.1 host = none →
            ∀ nh, (host, nh) ∉ row.2)
          ∧ ∀ p, plook (pathTableOf splitTopo) row.1 host = some p →
              ∃ nh, (host, nh) ∈ row.2 ∧ p.get? 1 = some nh := by
  have hdij : dijkstra splitTopo none
      = .ok (distTableOf splitTopo, pathTableOf splitTopo) := rfl
  exact unreachable_pairs_skipped hdij (by decide)

/-- C1: LFA soundness.  Whenever `compute_lfas(nexthops, failures=F)`
records an alternate `alt` for a (switch, host) pair, the loop-free
inequality `d(alt, host) < d(alt, switch) + d(switch, host)` holds,
where `d` is the distance table `dijkstra` computes under the same
failure set `F`. -/
theorem lfa_soundness
    {topo : Graph} {switches : List Node}
    {F : Option (List (Node × Node))}
    {nexthops lfas : List (Node × List (Node × Node))}
    (hok : computeLfas topo switches F nexthops = .ok lfas)
    {d : DistTable} {paths : PathTable}
    (hdij : dijkstra topo F = .ok (d, paths))
    {sw : Node} {row : List (Node × Node)} (hrow : (sw, row) ∈ lfas)
    {host alt : Node} (hmem : (host, alt) ∈ row) :
    ∃ dah das dsh, dlook d alt host = some dah
      ∧ dlook d alt sw = some das ∧ dlook d sw host = some dsh
      ∧ dah < das + dsh := by
  have hrows := computeLfas_ok hok hdij
  obtain ⟨R1, _⟩ := lfaRows_mem hrows
  obtain ⟨dests, _, hlh⟩ := R1 (sw, row) hrow
  exact lfaHosts_sound hlh hmem

/-- Witness for C1: in the failure-free ring, `compute_lfas` records the
alternate `s3` for `(s1, h2)`, and the inequality holds there. -/
theorem lfa_soundness_witness :
    ∃ dah das dsh,
      dlook (distTableOf ringTopo) "s3" "h2" = some dah
      ∧ dlook (distTableOf ringTopo) "s3" "s1" = some das
      ∧ dlook (distTableOf ringTopo) "s1" "h2" = some dsh
      ∧ dah < das + dsh := by
  have hok : computeLfas ringTopo ["s1", "s2", "s3"] none
      [("s1", [("h1", "h1"), ("h2", "s2"), ("h3", "s3")]),
       ("s2", [("h1", "s1"), ("h2", "h2"), ("h3", "s3")]),
       ("s3", [("h1", "s1"), ("h2", "s2"), ("h3", "h3")])]
      = .ok [("s1", [("h2", "s3"), ("h3", "s2")]),
             ("s2", [("h1", "s3"), ("h3", "s1")]),
             ("s3", [("h1", "s2"), ("h2", "s1")])] := rfl
  have hdij : dijkstra ringTopo none
      = .ok (distTableOf ringTopo, pathTableOf ringTopo) := rfl
  have hrow : ("s1", [("h2", "s3"), ("h3", "s2")])
      ∈ [("s1", [("h2", "s3"), ("h3", "s2")]),
         ("s2", [("h1", "s3"), ("h3", "s1")]),
         ("s3", [("h1", "s2"), ("h2", "s1")])] := by simp
  have hmem : (("h2", "s3") : Node × Node)
      ∈ [("h2", "s3"), ("h3", "s2")] := by simp
  exact lfa_soundness hok hdij hrow hmem

/-- C2: LFA minimality and completeness.  For a destination whose primary
next hop differs from the host, `compute_lfas` records an alternate
exactly when at least one candidate (all candidates are evaluated, not
only those before a first failing one) satisfies the loop-free
inequality, and a recorded alternate is a loop-free candidate minimizing
`d(switch, alt) + d(alt, host)` among all loop-free candidates. -/
theorem lfa_minimality_completeness
    {topo : Graph} {switches : List Node}
    {F : Option (List (Node × Node))}
    {nexthops lfas : List (Node × List (Node × Node))}
    (hok : computeLfas topo switches F nexthops = .ok lfas)
    {d : DistTable} {paths : PathTable}
    (hdij : dijkstra topo F = .ok (d, paths))
    {sw : Node} {dests : List (Node × Node)} (hsw : (sw, dests) ∈ nexthops)
    {host nexthop : Node} (hdest : (host, nexthop) ∈ dests)
    (hne : nexthop ≠ host) (hnodup : (dests.map Prod.fst).Nodup) :
    ∃ assoc, (sw, assoc) ∈ lfas
      ∧ ((∃ alt, (host, alt) ∈ assoc) ↔
          ∃ cand ∈ lfaOthers topo switches sw nexthop,
            loopFree d sw host cand)
      ∧ ∀ alt, (host, alt) ∈ assoc →
          alt ∈ lfaOthers topo switches sw nexthop
          ∧ loopFree d sw host alt
          ∧ ∃ t, totalCost d sw host alt = some t
            ∧ ∀ cand ∈ lfaOthers topo switches sw nexthop,
                loopFree d sw host cand →
                ∃ tc, totalCost d sw host cand = some tc ∧ t ≤ tc := by
  have hrows := computeLfas_ok hok hdij
  obtain ⟨_, R2⟩ := lfaRows_mem hrows
  obtain ⟨assoc, hmem, hlh⟩ := R2 (sw, dests) hsw
  obtain ⟨_, H2⟩ := lfaHosts_spec hlh
  obtain ⟨hiff, hmin⟩ := H2 hdest hne hnodup
  exact ⟨assoc, hmem, hiff, hmin⟩

/-- Witness for C2 at the concrete ring: for `(s1, h2)` with primary
`s2`, an alternate is recorded (a loop-free candidate exists) and it is
cost-minimal. -/
theorem lfa_minimality_completeness_witness :
    ∃ assoc, ("s1", assoc)
      ∈ [("s1", [("h2", "s3"), ("h3", "s2")]),
         ("s2", [("h1", "s3"), ("h3", "s1")]),
         ("s3", [("h1", "s2"), ("h2", "s1")])]
      ∧ ((∃ alt, ("h2", alt) ∈ assoc) ↔
          ∃ cand ∈ lfaOthers ringTopo ["s1", "s2", "s3"] "s1" "s2",
            loopFree (distTableOf ringTopo) "s1" "h2" cand)
      ∧ ∀ alt, ("h2", alt) ∈ assoc →
          alt ∈ lfaOthers ringTopo ["s1", "s2", "s3"] "s1" "s2"
          ∧ loopFree (distTableOf ringTopo) "s1" "h2" alt
          ∧ ∃ t, totalCost (distTableOf ringTopo) "s1" "h2" alt = some t
            ∧ ∀ cand ∈ lfaOthers ringTopo ["s1", "s2", "s3"] "s1" "s2",
                loopFree (distTableOf ringTopo) "s1" "h2" cand →
                ∃ tc, totalCost (distTableOf ringTopo) "s1" "h2" cand
                  = some tc ∧ t ≤ tc := by
  have hok : computeLfas ringTopo ["s1", "s2", "s3"] none
      [("s1", [("h1", "h1"), ("h2", "s2"), ("h3", "s3")]),
       ("s2", [("h1", "s1"), ("h2", "h2"), ("h3", "s3")]),
       ("s3", [("h1", "s1"), ("h2", "s2"), ("h3", "h3")])]
      = .ok [("s1", [("h2", "s3"), ("h3", "s2")]),
             ("s2", [("h1", "s3"), ("h3", "s1")]),
             ("s3", [("h1", "s2"), ("h2", "s1")])] := rfl
  have hdij : dijkstra ringTopo none
      = .ok (distTableOf ringTopo, pathTableOf ringTopo) := rfl
  have hsw : ("s1", [("h1", "h1"), ("h2", "s2"), ("h3", "s3")])
      ∈ [("s1", [("h1", "h1"), ("h2", "s2"), ("h3", "s3")]),
         ("s2", [("h1", "s1"), ("h2", "h2"), ("h3", "s3")]),
         ("s3", [("h1", "s1"), ("h2", "s2"), ("h3", "h3")])] := by simp
  have hdest : (("h2", "s2") : Node × Node)
      ∈ [("h1", "h1"), ("h2", "s2"), ("h3", "s3")] := by simp
  exact lfa_minimality_completeness hok hdij hsw hdest (by decide)
    (by decide)

/-- C8: backup fallback.  For a destination whose primary next hop
differs from the host but for which `compute_lfas` recorded no
alternate, `update_nexthops` writes the `alternativeNH` register with
the primary next hop's own port (the primary serves as its own backup);
for directly-adjacent destinations (`host == nexthop`) no
`alternativeNH` register write is performed for that pair at all. -/
theorem backup_fallback
    {topo : Graph} {switches hosts : List Node}
    {ports : Node → Node → Nat}
    {failures : Option (List (Node × Node))} {writes : List RegWrite}
    (hok : updateNexthops topo switches hosts ports failures = .ok writes)
    {nexthops lfas : List (Node × List (Node × Node))}
    (hnh : computeNexthops topo switches hosts failures = .ok nexthops)
    (hlf : computeLfas topo switches failures nexthops = .ok lfas)
    {sw : Node} {dests : List (Node × Node)} (hsw : (sw, dests) ∈ nexthops)
    {host nexthop : Node} (hdest : (host, nexthop) ∈ dests)
    (hnodupsw : switches.Nodup) (hnoduph : hosts.Nodup) :
    (host ≠ nexthop →
      ((tlook lfas sw).bind fun row => tlook row host) = none →
      RegWrite.alternative sw (getNexthopIndex hosts host)
        (ports sw nexthop) ∈ writes)
    ∧ (host = nexthop →
      ∀ p, RegWrite.alternative sw (getNexthopIndex hosts host) p
        ∉ writes) := by
  obtain ⟨nexthops2, lfas2, hnh2, hlf2, hw⟩ := updateNexthops_ok hok
  have e1 : nexthops = nexthops2 := by
    rw [hnh] at hnh2
    exact Except.ok.inj hnh2
  subst e1
  have e2 : lfas = lfas2 := by
    rw [hlf] at hlf2
    exact Except.ok.inj hlf2
  subst e2
  subst hw
  have hok2 : (dijkstra topo failures).bind
      (fun dp => nexthopRows dp.2 hosts switches) = .ok nexthops := hnh
  obtain ⟨dp, hdij, hrows⟩ := except_bind_ok hok2
  obtain ⟨hmap, rowentries⟩ := nexthopRows_ok hrows
  constructor
  · intro hne hnone
    refine List.mem_flatMap.mpr ⟨(sw, dests), hsw, ?_⟩
    unfold switchWrites
    exact List.mem_append_right _ (altWrites_fallback hdest hne hnone)
  · intro heq p hcontra
    rcases List.mem_flatMap.mp hcontra with ⟨row, hrowmem, hwmem⟩
    rcases switchWrites_mem hwmem with ⟨h', n', _, hweq⟩ | halt
    · exact RegWrite.noConfusion hweq
    · obtain ⟨h', n', lfaNH, hmem', hne', hweq⟩ := altWrites_mem_char halt
      obtain ⟨hsweq, hidx, _⟩ := RegWrite.alternative.injEq .. ▸ hweq
      have hkeysnodup : (nexthops.map Prod.fst).Nodup := by
        rw [hmap]; exact hnodupsw
      have hroweq : row = (sw, dests) :=
        nodup_keys_eq hkeysnodup hrowmem hsw hsweq.symm
      subst hroweq
      have hent := rowentries (sw, dests) hsw
      obtain ⟨hh', _⟩ := nexthopEntries_mem hent hmem'
      obtain ⟨hhost, _⟩ := nexthopEntries_mem hent hdest
      have hhosteq : host = h' := getNexthopIndex_inj hhost hh' hidx
      subst hhosteq
      have hdnodup : (dests.map Prod.fst).Nodup :=
        (nexthopEntries_keys_sublist hent).nodup hnoduph
      have hpair : ((host, n') : Node × Node) = (host, nexthop) :=
        nodup_keys_eq hdnodup hmem' hdest rfl
      obtain ⟨_, hn'⟩ := Prod.mk.injEq .. ▸ hpair
      subst hn'
      rw [heq] at hne'
      exact hne' rfl

/-- Witness for C8: in the line topology `h1 - s1 - s2 - h2`, switch
`s1` has no LFA toward `h2`, so the backup register gets the primary's
own port. -/
theorem backup_fallback_witness :
    RegWrite.alternative "s1" (getNexthopIndex ["h1", "h2"] "h2")
      (demoPorts "s1" "s2")
    ∈ [RegWrite.primary "s1" 0 6, RegWrite.primary "s1" 1 6,
       RegWrite.alternative "s1" 1 6, RegWrite.primary "s2" 0 6,
       RegWrite.primary "s2" 1 6, RegWrite.alternative "s2" 0 6] := by
  have hok : updateNexthops lineTopo ["s1", "s2"] ["h1", "h2"]
      demoPorts none
      = .ok [RegWrite.primary "s1" 0 6, RegWrite.primary "s1" 1 6,
             RegWrite.alternative "s1" 1 6, RegWrite.primary "s2" 0 6,
             RegWrite.primary "s2" 1 6,
             RegWrite.alternative "s2" 0 6] := rfl
  have hnh : computeNexthops lineTopo ["s1", "s2"] ["h1", "h2"] none
      = .ok [("s1", [("h1", "h1"), ("h2", "s2")]),
             ("s2", [("h1", "s1"), ("h2", "h2")])] := rfl
  have hlf : computeLfas lineTopo ["s1", "s2"] none
      [("s1", [("h1", "h1"), ("h2", "s2")]),
       ("s2", [("h1", "s1"), ("h2", "h2")])]
      = .ok [("s1", []), ("s2", [])] := rfl
  have hsw : ("s1", [("h1", "h1"), ("h2", "s2")])
      ∈ [("s1", [("h1", "h1"), ("h2", "s2")]),
         ("s2", [("h1", "s1"), ("h2", "h2")])] := by simp
  have hdest : (("h2", "s2") : Node × Node)
      ∈ [("h1", "h1"), ("h2", "s2")] := by simp
  exact (backup_fallback hok hnh hlf hsw hdest (by decide) (by decide)).1
    (by decide) rfl

/-- C10 (implicit): nexthop index consistency.  `get_nexthop_index` is
deterministic (a pure function of the host list) and injective on
hosts; the `ipv4_lpm` table entry for a host and every
`primaryNH`/`alternativeNH` register write emitted by `update_nexthops`
address indices of the same form `getNexthopIndex hosts host` for a
host of the topology. -/
theorem nexthop_index_consistency
    {topo : Graph} {switches hosts : List Node}
    {ports : Node → Node → Nat} {hostNet : Node → String}
    {failures : Option (List (Node × Node))} {writes : List RegWrite}
    (hok : updateNexthops topo switches hosts ports failures
      = .ok writes) :
    (∀ h1 ∈ hosts, ∀ h2 ∈ hosts,
      getNexthopIndex hosts h1 = getNexthopIndex hosts h2 → h1 = h2)
    ∧ (∀ sw ∈ switches, ∀ host ∈ hosts,
        (sw, hostNet host, getNexthopIndex hosts host)
          ∈ installNexthopIndices switches hosts hostNet)
    ∧ ∀ w ∈ writes, ∃ sw host nh, host ∈ hosts
        ∧ (w = RegWrite.primary sw (getNexthopIndex hosts host)
            (ports sw nh)
          ∨ w = RegWrite.alternative sw (getNexthopIndex hosts host)
            (ports sw nh)) := by
  refine ⟨fun h1 m1 h2 m2 he => getNexthopIndex_inj m1 m2 he, ?_, ?_⟩
  · intro sw hsw host hhost
    unfold installNexthopIndices
    exact List.mem_flatMap.mpr ⟨sw, hsw, List.mem_map.mpr
      ⟨host, hhost, rfl⟩⟩
  · intro w hw
    obtain ⟨nexthops, lfas, hnh, _, hweq⟩ := updateNexthops_ok hok
    subst hweq
    rcases List.mem_flatMap.mp hw with ⟨row, hrow, hwmem⟩
    have hok2 : (dijkstra topo failures).bind
        (fun dp => nexthopRows dp.2 hosts switches) = .ok nexthops := hnh
    obtain ⟨dp, _, hrows⟩ := except_bind_ok hok2
    obtain ⟨_, rowentries⟩ := nexthopRows_ok hrows
    have hent := rowentries row hrow
    rcases switchWrites_mem hwmem with ⟨h', n', hmem', hweq2⟩ | halt
    · obtain ⟨hh, _⟩ := nexthopEntries_mem hent hmem'
      exact ⟨row.1, h', n', hh, Or.inl hweq2⟩
    · obtain ⟨h', n', lfaNH, hmem', _, hweq2⟩ := altWrites_mem_char halt
      obtain ⟨hh, _⟩ := nexthopEntries_mem hent hmem'
      exact ⟨row.1, h', lfaNH, hh, Or.inr hweq2⟩

/-- Witness for C10 on the line topology. -/
theorem nexthop_index_consistency_witness :
    (∀ h1 ∈ ["h1", "h2"], ∀ h2 ∈ ["h1", "h2"],
      getNexthopIndex ["h1", "h2"] h1 = getNexthopIndex ["h1", "h2"] h2 →
        h1 = h2)
    ∧ (∀ sw ∈ ["s1", "s2"], ∀ host ∈ ["h1", "h2"],
        (sw, demoNet host, getNexthopIndex ["h1", "h2"] host)
          ∈ installNexthopIndices ["s1", "s2"] ["h1", "h2"] demoNet)
    ∧ ∀ w ∈ [RegWrite.primary "s1" 0 6, RegWrite.primary "s1" 1 6,
        RegWrite.alternative "s1" 1 6, RegWrite.primary "s2" 0 6,
        RegWrite.primary "s2" 1 6, RegWrite.alternative "s2" 0 6],
        ∃ sw host nh, host ∈ ["h1", "h2"]
          ∧ (w = RegWrite.primary sw
              (getNexthopIndex ["h1", "h2"] host) (demoPorts sw nh)
            ∨ w = RegWrite.alternative sw
              (getNexthopIndex ["h1", "h2"] host) (demoPorts sw nh)) := by
  have hok : updateNexthops lineTopo ["s1", "s2"] ["h1", "h2"]
      demoPorts none
      = .ok [RegWrite.primary "s1" 0 6, RegWrite.primary "s1" 1 6,
             RegWrite.alternative "s1" 1 6, RegWrite.primary "s2" 0 6,
             RegWrite.primary "s2" 1 6,
             RegWrite.alternative "s2" 0 6] := rfl
  exact nexthop_index_consistency hok

/-- Witness for C4 at a concrete state: the link `(a, b)` is already
recorded, so notifying `(b, a)` changes nothing and recomputes nothing. -/
theorem duplicate_notification_idempotent_witness :
    processFailure ⟨[("a", "b")]⟩ ("a", "b") = (⟨[("a", "b")]⟩, none) :=
  (duplicate_notification_idempotent ⟨[("a", "b")]⟩ "a" "b").2.1 (by decide)

/-- C9 counterexample: listing a failed edge that is absent from the
topology is not a harmless no-op — `remove_edge` raises `NetworkXError`,
so `dijkstra` fails instead of returning the tables it would return
without the absent edge. -/
theorem absent_failed_edge_raises :
    dijkstra ⟨["a", "b"], [("a", "b", 1)]⟩ (some [("a", "z")])
      = .error "NetworkXError: the edge is not in the graph"
    ∧ (dijkstra ⟨["a", "b"], [("a", "b", 1)]⟩ none).toOption.isSome = true := by
  constructor
  · rfl
  · decide

/-- C9 amended: excluding failed edges never mutates the base topology —
`dijkstra(failures=F)` computes on the graph freshly derived by removing
`F` — and it succeeds whenever every listed edge is present in the
topology and no two listed failures denote the same link; an absent
listed edge, however, raises `NetworkXError` (see the counterexample)
rather than being a no-op. -/
theorem dijkstra_present_failures_ok (topo : Graph) (F : List (Node × Node))
    (hpres : ∀ e ∈ F, topo.hasEdge e.1 e.2 = true)
    (hdist : F.Pairwise fun e1 e2 => ¬ sameLink e1 e2) :
    (∃ tables, dijkstra topo (some F) = .ok tables)
    ∧ dijkstra topo (some F)
        = (removeEdges topo F).bind fun fresh => dijkstra fresh none := by
  obtain ⟨g', hg'⟩ := removeEdges_ok_of_present F topo hpres hdist
  constructor
  · exact ⟨(distTableOf g', pathTableOf g'),
      by simp only [dijkstra, effectiveGraph, hg']; rfl⟩
  · simp only [dijkstra, effectiveGraph, hg']; rfl

/-- C5: every path in the table returned by `dijkstra(failures=F)` is a
path of the topology with the edges of `F` removed: it starts at the
source, ends at the destination, every consecutive node pair is an edge
of the remaining graph, and it traverses no edge of `F`. -/
theorem dijkstra_paths_avoid_failed_edges
    {topo : Graph} {F : List (Node × Node)} {d : DistTable}
    {paths : PathTable} {s t : Node} {p : List Node}
    (hok : dijkstra topo (some F) = .ok (d, paths))
    (hp : plook paths s t = some p) :
    ∃ g', removeEdges topo F = .ok g'
      ∧ isPath g' p = true
      ∧ p.head? = some s ∧ p.getLast? = some t
      ∧ ∀ ab ∈ p.zip p.tail,
          g'.hasEdge ab.1 ab.2 = true ∧ inFailures F ab.1 ab.2 = false := by
  have hok' : (removeEdges topo F).bind
      (fun graph => (Except.ok (distTableOf graph, pathTableOf graph) :
        Except String (DistTable × PathTable))) = .ok (d, paths) := hok
  cases hre : removeEdges topo F with
  | error msg =>
    rw [hre] at hok'
    simp [Except.bind] at hok'
  | ok g' =>
    rw [hre] at hok'
    simp only [Except.bind] at hok'
    have hpair : (distTableOf g', pathTableOf g') = (d, paths) :=
      Except.ok.inj hok'
    have hpaths : pathTableOf g' = paths := congrArg Prod.snd hpair
    rw [← hpaths] at hp
    obtain ⟨hpath, hh, hl⟩ := pathTableOf_valid hp
    refine ⟨g', rfl, hpath, hh, hl, fun ab hab => ?_⟩
    have hedge := isPath_zip hpath ab hab
    exact ⟨hedge, removeEdges_not_inFailures hre hedge⟩

/-- Witness for C5: in the ring with link `(s1, s2)` failed, the path
`s1 → s3 → s2 → h2` appears in the table and avoids the failed link. -/
theorem dijkstra_paths_avoid_failed_edges_witness :
    ∃ g', removeEdges ringTopo [("s1", "s2")] = .ok g'
      ∧ isPath g' ["s1", "s3", "s2", "h2"] = true
      ∧ (["s1", "s3", "s2", "h2"] : List Node).head? = some "s1"
      ∧ (["s1", "s3", "s2", "h2"] : List Node).getLast? = some "h2"
      ∧ ∀ ab ∈ (["s1", "s3", "s2", "h2"] : List Node).zip
          (["s1", "s3", "s2", "h2"] : List Node).tail,
          g'.hasEdge ab.1 ab.2 = true
          ∧ inFailures [("s1", "s2")] ab.1 ab.2 = false := by
  have h1 : dijkstra ringTopo (some [("s1", "s2")])
      = .ok (distTableOf ringTopoCut, pathTableOf ringTopoCut) := rfl
  have h2 : plook (pathTableOf ringTopoCut) "s1" "h2"
      = some ["s1", "s3", "s2", "h2"] := rfl
  exact dijkstra_paths_avoid_failed_edges h1 h2

/-- Witness for C9 (amended): a concrete three-node path topology with
one present failed link. -/
theorem dijkstra_present_failures_ok_witness :
    (∃ tables, dijkstra ⟨["a", "b", "c"], [("a", "b", 1), ("b", "c", 1)]⟩
        (some [("a", "b")]) = .ok tables)
    ∧ dijkstra ⟨["a", "b", "c"], [("a", "b", 1), ("b", "c", 1)]⟩
        (some [("a", "b")])
      = (removeEdges ⟨["a", "b", "c"], [("a", "b", 1), ("b", "c", 1)]⟩
          [("a", "b")]).bind fun fresh => dijkstra fresh none :=
  dijkstra_present_failures_ok
    ⟨["a", "b", "c"], [("a", "b", 1), ("b", "c", 1)]⟩ [("a", "b")]
    (by decide) (by decide)

end Reroute
